import Mathlib

/-!
Verification of the MSNumpress codec family (MSNumpress.cpp / MSNumpress.hpp).

The C++ source is shallowly embedded as follows:

* `unsigned char` bytes are `Nat` (values < 256 in all reachable states);
* 32-bit machine integers are represented by their two's-complement bit
  pattern, a `Nat` below `2 ^ 32`; `toInt32` reinterprets a pattern as the
  signed value of a C `int`, and `pat32` is the inverse direction;
* `double` inputs are modelled as exact rationals `ℚ`; the C cast
  `(unsigned int)(expr)` (truncation toward zero, with the out-of-range /
  negative case following the two's-complement wrap that the reference
  platforms exhibit) is `castUInt32`;
* out-of-bounds accesses on `std::vector` (undefined behaviour in the
  source; `operator[]` is unchecked and throws nothing) are modelled by
  `Option`: a function returns `none` exactly when the C++ code would
  index outside its buffer;
* the `while` loops of the decoders are given explicit fuel; the fuel
  passed by the top-level wrappers (`2 * data.length + 1`) dominates the
  iteration count because every loop iteration consumes at least one
  nibble of the input.
-/

namespace MSNumpress

/-- Signed value of a 32-bit two's-complement bit pattern (C `int`). -/
def toInt32 (p : Nat) : Int := if p < 2 ^ 31 then (p : Int) else (p : Int) - 2 ^ 32

/-- Two's-complement 32-bit pattern of an integer (bits of a C `int`). -/
def pat32 (x : Int) : Nat := (x % (2 ^ 32)).toNat

/-- The `k`-th little-endian nibble of a 32-bit pattern: `(x >> (4*k)) & 0xf`. -/
def nibOf (u k : Nat) : Nat := u / 16 ^ k % 16

/-- `encodeInt`, first branch: the loop
`for i in 0..7: if (x & (mask >> 4*i)) != 0 { l = i; break }` with `l = 8`
when no test fires.  `mask >> 4*i` is the arithmetic shift of `0xf0000000`,
i.e. the mask of the top `i+1` nibbles, so the test is `u / 16^(7-i) ≠ 0`. -/
def encLZ (u : Nat) : Nat := ((List.range 8).find? fun i => u / 16 ^ (7 - i) != 0).getD 8

/-- `encodeInt`, second branch: the loop
`for i in 0..7: if (x & m) != m { l = i; break }` with `m = mask >> 4*i`
and `l = 7` when no test fires; the test is `u / 16^(7-i) ≠ 16^(i+1) - 1`. -/
def encLO (u : Nat) : Nat :=
  ((List.range 8).find? fun i => u / 16 ^ (7 - i) != 16 ^ (i + 1) - 1).getD 7

/-- `encodeInt(int x, unsigned char *res, size_t *res_length)`: emits the
halfbyte (nibble) sequence for `x`.  The source branches on
`init = x & 0xf0000000`: `init == 0` is "top nibble 0x0" (`u / 16^7 = 0`),
`init == mask` is "top nibble 0xf" (`u / 16^7 = 15`).  It then writes a
header nibble (`l`, `l + 8`, or `0`) followed by the remaining nibbles of
`x` in little-endian order (`res[1+i-l] = x >> (4*(i-l))`; only the low 4
bits of each `res` cell survive the later byte packing, hence `nibOf`). -/
def encodeInt (x : Int) : List Nat :=
  let u := pat32 x
  if u / 16 ^ 7 = 0 then
    let l := encLZ u
    l :: (List.range (8 - l)).map (nibOf u)
  else if u / 16 ^ 7 = 15 then
    let l := encLO u
    (l + 8) :: (List.range (8 - l)).map (nibOf u)
  else
    0 :: (List.range 8).map (nibOf u)

/-- Packing of a nibble stream into bytes, high nibble first:
`result[ri] = (halfBytes[hbi-1] << 4) | (halfBytes[hbi] & 0xf)`, and the
final lone nibble is written as `halfBytes[0] << 4` (low nibble zero).
This is the cumulative effect of the rolling pack in `encodeLinear` /
`encodeCount`; `encodePairsCarry` below reproduces the rolling form and is
proved equal to this one. -/
def packNibbles : List Nat → List Nat
  | [] => []
  | [a] => [a % 16 * 16]
  | a :: b :: t => (a % 16 * 16 + b % 16) :: packNibbles t

/-- One nibble read of `decodeInt`: with `half == 0` take the high nibble
`data[di] >> 4` and leave `di`; with `half == 1` take the low nibble
`data[di] & 0xf` and advance `di`; the parity always toggles. -/
def readNib (data : List Nat) (di half : Nat) : Option (Nat × Nat × Nat) :=
  match data.get? di with
  | none => none
  | some b => if half = 0 then some (b / 16, di, 1) else some (b % 16, di + 1, 0)

/-- The payload loop of `decodeInt`:
`for i in n..7 { hb := next nibble; res |= hb << ((i-n)*4) }`.
`m` is the remaining iteration count `8 - i`, `sh` is `i - n`. -/
def decodeIntLoop (data : List Nat) : Nat → Nat → Nat → Nat → Nat → Option (Nat × Nat × Nat)
  | 0, _, acc, di, half => some (acc, di, half)
  | m + 1, sh, acc, di, half =>
    match readNib data di half with
    | none => none
    | some (hb, di2, half2) => decodeIntLoop data m (sh + 1) (acc ||| hb <<< (sh * 4)) di2 half2

/-- Sign-extension initialisation of `decodeInt` for `head > 8`:
`for i in 0..n-1: res |= mask >> (4*i)`; the arithmetic shift
`mask >> (4*i)` is the mask of the top `i+1` nibbles. -/
def onesInit (n : Nat) : Nat :=
  (List.range n).foldl (fun r i => r ||| (16 ^ (i + 1) - 1) * 16 ^ (7 - i)) 0

/-- `decodeInt(data, &di, &half, &res)`: reads a header nibble, initialises
the result pattern (zero, or `n` leading `0xf` nibbles when `head > 8`),
returns early when `n == 8`, and otherwise reads the remaining `8 - n`
nibbles little-endian.  Returns the decoded 32-bit pattern together with
the advanced byte index and parity; `none` models the out-of-bounds
`data[di]` access on a truncated buffer. -/
def decodeInt (data : List Nat) (di half : Nat) : Option (Nat × Nat × Nat) :=
  match readNib data di half with
  | none => none
  | some (head, di2, half2) =>
    let n := if head ≤ 8 then head else head - 8
    let acc0 := if head ≤ 8 then 0 else onesInit (head - 8)
    if n = 8 then some (acc0, di2, half2)
    else decodeIntLoop data (8 - n) 0 acc0 di2 half2

/-! Basic arithmetic helpers. -/

theorem pow16_eq (k : Nat) : (16 : Nat) ^ k = 2 ^ (4 * k) := by
  rw [show (16 : Nat) = 2 ^ 4 from rfl, ← pow_mul]

theorem nibOf_lt (u k : Nat) : nibOf u k < 16 := Nat.mod_lt _ (by norm_num)

theorem mod_pow16_succ (u sh : Nat) :
    u % 16 ^ (sh + 1) = u % 16 ^ sh + nibOf u sh * 16 ^ sh := by
  rw [Nat.mod_pow_succ, nibOf, Nat.mul_comm]

/-- Find over an initial segment of the naturals: value, membership and
minimality of the first hit. -/
theorem find?_range_spec {p : Nat → Bool} {n l : Nat}
    (h : (List.range n).find? p = some l) :
    l < n ∧ p l = true ∧ ∀ j, j < l → p j = false := by
  rw [List.find?_eq_some] at h
  obtain ⟨hp, as, bs, heq, hprev⟩ := h
  have hlen : as.length + (bs.length + 1) = n := by
    have h1 := congrArg List.length heq
    simp only [List.length_range, List.length_append, List.length_cons] at h1
    omega
  have hl : l = as.length := by
    have h1 : (List.range n)[as.length]? = some as.length :=
      List.getElem?_range (by omega)
    have h2 : (List.range n)[as.length]? = some l := by
      rw [heq, List.getElem?_append_right (Nat.le_refl _)]
      simp
    rw [h1] at h2
    exact (Option.some.injEq _ _ ▸ h2).symm
  refine ⟨by omega, hp, fun j hj => ?_⟩
  have hmem : j ∈ as := by
    have h1 : (List.range n)[j]? = some j := List.getElem?_range (by omega)
    have h2 : (List.range n)[j]? = as[j]? := by
      rw [heq]
      exact List.getElem?_append_left (by omega)
    rw [h1] at h2
    obtain ⟨hjl, hje⟩ := List.getElem?_eq_some.mp h2.symm
    exact hje ▸ List.getElem_mem _
  simpa using hprev j hmem

/-! Reading nibbles from a packed nibble stream. -/

theorem readNib_none {data : List Nat} {di : Nat} (half : Nat)
    (h : data.get? di = none) : readNib data di half = none := by
  unfold readNib
  rw [h]

theorem readNib_some {data : List Nat} {di b : Nat} (half : Nat)
    (h : data.get? di = some b) :
    readNib data di half
      = if half = 0 then some (b / 16, di, 1) else some (b % 16, di + 1, 0) := by
  unfold readNib
  rw [h]

theorem readNib_cons (x : Nat) (l : List Nat) (d h : Nat) :
    readNib (x :: l) (d + 1) h
      = (readNib l d h).map (fun r => (r.1, r.2.1 + 1, r.2.2)) := by
  cases hg : l.get? d with
  | none =>
    rw [readNib_none h hg, readNib_none h (by simpa using hg)]
    rfl
  | some b =>
    rw [readNib_some h hg, readNib_some h (show (x :: l).get? (d + 1) = some b by simpa using hg)]
    by_cases hh : h = 0 <;> simp [hh]

/-- Reading the `k`-th nibble of a packed stream at byte position `k / 2`
and parity `k % 2` yields nibble `k` and advances to position `k + 1`. -/
theorem readNib_pack : ∀ (ns : List Nat) (k : Nat), k < ns.length →
    readNib (packNibbles ns) (k / 2) (k % 2)
      = some (ns.getD k 0 % 16, (k + 1) / 2, (k + 1) % 2)
  | [], k, h => by simp at h
  | [a], 0, _ => by
    have h16 : a % 16 < 16 := Nat.mod_lt _ (by norm_num)
    rw [show (0 : Nat) / 2 = 0 from rfl, show (0 : Nat) % 2 = 0 from rfl,
      readNib_some 0 (show (packNibbles [a]).get? 0 = some (a % 16 * 16) from rfl)]
    simp only [if_pos rfl]
    refine congrArg some ?_
    refine Prod.ext ?_ rfl
    simp only [List.getD_cons_zero]
    omega
  | [a], k + 1, h => by simp at h
  | a :: b :: t, 0, _ => by
    have ha : a % 16 < 16 := Nat.mod_lt _ (by norm_num)
    have hb : b % 16 < 16 := Nat.mod_lt _ (by norm_num)
    rw [show (0 : Nat) / 2 = 0 from rfl, show (0 : Nat) % 2 = 0 from rfl,
      readNib_some 0
        (show (packNibbles (a :: b :: t)).get? 0 = some (a % 16 * 16 + b % 16) from rfl)]
    simp only [if_pos rfl]
    refine congrArg some ?_
    refine Prod.ext ?_ rfl
    simp only [List.getD_cons_zero]
    omega
  | a :: b :: t, 1, _ => by
    have ha : a % 16 < 16 := Nat.mod_lt _ (by norm_num)
    have hb : b % 16 < 16 := Nat.mod_lt _ (by norm_num)
    rw [show (1 : Nat) / 2 = 0 from rfl, show (1 : Nat) % 2 = 1 from rfl,
      readNib_some 1
        (show (packNibbles (a :: b :: t)).get? 0 = some (a % 16 * 16 + b % 16) from rfl)]
    simp only [if_neg (by omega : ¬(1 : Nat) = 0)]
    refine congrArg some ?_
    refine Prod.ext ?_ rfl
    simp only [List.getD_cons_zero, List.getD_cons_succ]
    omega
  | a :: b :: t, k + 2, h => by
    have hk : k < t.length := by
      simp only [List.length_cons] at h
      omega
    have ih := readNib_pack t k hk
    have hdiv : (k + 2) / 2 = k / 2 + 1 := by omega
    have hmod : (k + 2) % 2 = k % 2 := by omega
    rw [show packNibbles (a :: b :: t) = (a % 16 * 16 + b % 16) :: packNibbles t from rfl,
      hdiv, hmod, readNib_cons, ih]
    simp only [Option.map_some']
    refine congrArg some ?_
    refine Prod.ext ?_ (Prod.ext ?_ ?_)
    · simp [List.getD_cons_succ]
    · show (k + 1) / 2 + 1 = (k + 2 + 1) / 2
      omega
    · show (k + 1) % 2 = (k + 2 + 1) % 2
      omega

/-- One OR-accumulation step of the `decodeInt` payload loop, rewritten as
addition: the three parts (high initialisation `A`, low bits already read,
incoming nibble) occupy disjoint bit ranges. -/
theorem acc_step (A u sh : Nat) (hA : 2 ^ (4 * (sh + 1)) ∣ A) :
    (A + u % 16 ^ sh) ||| nibOf u sh <<< (sh * 4) = A + u % 16 ^ (sh + 1) := by
  obtain ⟨c, hc⟩ := hA
  have hE : (16 : Nat) ^ sh = 2 ^ (4 * sh) := pow16_eq sh
  have hL : u % 16 ^ sh < 2 ^ (4 * sh) := hE ▸ Nat.mod_lt _ (Nat.pos_pow_of_pos _ (by norm_num))
  have hnib : nibOf u sh < 16 := nibOf_lt u sh
  have hsh : nibOf u sh <<< (sh * 4) = 2 ^ (4 * sh) * nibOf u sh := by
    rw [Nat.shiftLeft_eq, Nat.mul_comm, Nat.mul_comm sh 4]
  have hA4 : A = 2 ^ (4 * sh) * (16 * c) := by
    rw [hc, show 4 * (sh + 1) = 4 * sh + 4 from by ring, pow_add]
    ring
  have hHL : nibOf u sh <<< (sh * 4) + u % 16 ^ sh
      = 2 ^ (4 * sh) * nibOf u sh ||| u % 16 ^ sh := by
    rw [hsh]
    exact Nat.mul_add_lt_is_or hL _
  have hAL : A + u % 16 ^ sh = A ||| u % 16 ^ sh := by
    rw [hA4]
    exact Nat.mul_add_lt_is_or hL _
  have hsum : nibOf u sh <<< (sh * 4) + u % 16 ^ sh < 2 ^ (4 * (sh + 1)) := by
    rw [hsh, show 4 * (sh + 1) = 4 * sh + 4 from by ring, pow_add]
    have : 2 ^ (4 * sh) * nibOf u sh ≤ 2 ^ (4 * sh) * 15 :=
      Nat.mul_le_mul_left _ (by omega)
    omega
  have hfin : A + (2 ^ (4 * sh) * nibOf u sh + u % 16 ^ sh)
      = A ||| (2 ^ (4 * sh) * nibOf u sh + u % 16 ^ sh) := by
    rw [hc]
    refine Nat.mul_add_lt_is_or ?_ _
    rw [← hsh]
    exact hsum
  rw [hsh]
  calc (A + u % 16 ^ sh) ||| 2 ^ (4 * sh) * nibOf u sh
      = (A ||| u % 16 ^ sh) ||| 2 ^ (4 * sh) * nibOf u sh := by rw [← hAL]
    _ = A ||| (u % 16 ^ sh ||| 2 ^ (4 * sh) * nibOf u sh) := Nat.or_assoc _ _ _
    _ = A ||| (2 ^ (4 * sh) * nibOf u sh ||| u % 16 ^ sh) := by rw [Nat.or_comm (u % 16 ^ sh)]
    _ = A ||| (2 ^ (4 * sh) * nibOf u sh + u % 16 ^ sh) := by
        rw [← hsh, hHL, hsh]
    _ = A + (2 ^ (4 * sh) * nibOf u sh + u % 16 ^ sh) := hfin.symm
    _ = A + u % 16 ^ (sh + 1) := by
        rw [mod_pow16_succ, hE]
        ring

/-- Specification of the `decodeInt` payload loop on a packed stream: if
the next `m` nibbles are nibbles `sh, sh+1, ...` of the pattern `u`, the
loop extends the accumulator from `A + u % 16^sh` to `A + u % 16^(sh+m)`
and advances by `m` nibble positions. -/
theorem decodeIntLoop_pack (ns : List Nat) (u : Nat) :
    ∀ (m sh k A : Nat), k + m ≤ ns.length → 2 ^ (4 * (sh + m)) ∣ A →
    (∀ j, j < m → ns.getD (k + j) 0 % 16 = nibOf u (sh + j)) →
    decodeIntLoop (packNibbles ns) m sh (A + u % 16 ^ sh) (k / 2) (k % 2)
      = some (A + u % 16 ^ (sh + m), (k + m) / 2, (k + m) % 2)
  | 0, sh, k, A, _, _, _ => by simp [decodeIntLoop]
  | m + 1, sh, k, A, hk, hA, hu => by
    have hk1 : k < ns.length := by omega
    have hnib := hu 0 (by omega)
    simp only [Nat.add_zero] at hnib
    rw [decodeIntLoop, readNib_pack ns k hk1, hnib]
    dsimp only
    rw [acc_step A u sh (dvd_trans (pow_dvd_pow 2 (by omega)) hA)]
    have ih := decodeIntLoop_pack ns u m (sh + 1) (k + 1) A (by omega)
      (by
        have : 4 * (sh + 1 + m) = 4 * (sh + (m + 1)) := by ring
        rw [this]
        exact hA)
      (fun j hj => by
        have := hu (j + 1) (by omega)
        rw [show k + 1 + j = k + (j + 1) from by ring, show sh + 1 + j = sh + (j + 1) from by ring]
        exact this)
    rw [ih]
    refine congrArg some ?_
    refine Prod.ext ?_ (Prod.ext ?_ ?_) <;> simp <;> ring_nf

/-! Facts about the two's-complement pattern conversions. -/

theorem pat32_lt (x : Int) : pat32 x < 2 ^ 32 := by
  unfold pat32
  omega

theorem toInt32_pat32 {x : Int} (h1 : -(2 ^ 31) ≤ x) (h2 : x < 2 ^ 31) :
    toInt32 (pat32 x) = x := by
  unfold toInt32 pat32
  split <;> omega

theorem pat32_toInt32 {p : Nat} (h : p < 2 ^ 32) : pat32 (toInt32 p) = p := by
  unfold toInt32 pat32
  split <;> omega

/-! Structure of the nibble sequence emitted by `encodeInt`. -/

theorem encLZ_le (u : Nat) : encLZ u ≤ 8 := by
  unfold encLZ
  cases hf : (List.range 8).find? fun i => u / 16 ^ (7 - i) != 0 with
  | none => simp
  | some l =>
    have := (find?_range_spec hf).1
    simp only [Option.getD_some]
    omega

theorem encLO_le (u : Nat) : encLO u ≤ 7 := by
  unfold encLO
  cases hf : (List.range 8).find? fun i => u / 16 ^ (7 - i) != 16 ^ (i + 1) - 1 with
  | none => simp
  | some l =>
    have := (find?_range_spec hf).1
    simp only [Option.getD_some]
    omega

/-- In the top-nibble-zero branch, the header count `l` is between 1 and 8
and exactly the leading-zero-nibble count: `u < 16 ^ (8 - l)`. -/
theorem encLZ_spec {u : Nat} (h : u / 16 ^ 7 = 0) :
    1 ≤ encLZ u ∧ encLZ u ≤ 8 ∧ u < 16 ^ (8 - encLZ u) := by
  unfold encLZ
  cases hf : (List.range 8).find? fun i => u / 16 ^ (7 - i) != 0 with
  | none =>
    have hall := List.find?_eq_none.mp hf
    have h7 := hall 7 (by simp)
    simp only [Nat.sub_self, pow_zero, Nat.div_one, bne_iff_ne, ne_eq, not_not] at h7
    simp only [Option.getD_none]
    omega
  | some l =>
    obtain ⟨hl8, hpl, hmin⟩ := find?_range_spec hf
    have hl1 : 1 ≤ l := by
      rcases Nat.eq_zero_or_pos l with h0 | h1
      · subst h0
        simp only [Nat.sub_zero, bne_iff_ne, ne_eq] at hpl
        exact absurd h hpl
      · exact h1
    have hprev := hmin (l - 1) (by omega)
    simp only [bne_iff_ne, ne_eq] at hprev
    have hz : u / 16 ^ (7 - (l - 1)) = 0 := by
      by_contra hc
      simp [hc] at hprev
    have h8l : 7 - (l - 1) = 8 - l := by omega
    rw [h8l] at hz
    have hpos : 0 < (16 : Nat) ^ (8 - l) := Nat.one_le_pow _ _ (by norm_num)
    have hlt : u < 16 ^ (8 - l) := by
      by_contra hc
      have := Nat.div_eq_zero_iff hpos |>.mp hz
      omega
    simp only [Option.getD_some]
    exact ⟨hl1, by omega, hlt⟩

/-- In the top-nibble-ones branch, the header count `l` is between 1 and 7
and the top `l` nibbles of `u` are all `0xf`:
`u / 16 ^ (8 - l) = 16 ^ l - 1`. -/
theorem encLO_spec {u : Nat} (h : u / 16 ^ 7 = 15) :
    1 ≤ encLO u ∧ encLO u ≤ 7 ∧ u / 16 ^ (8 - encLO u) = 16 ^ (encLO u) - 1 := by
  unfold encLO
  cases hf : (List.range 8).find? fun i => u / 16 ^ (7 - i) != 16 ^ (i + 1) - 1 with
  | none =>
    have hall := List.find?_eq_none.mp hf
    have h6 := hall 6 (by simp)
    simp only [bne_iff_ne, ne_eq, not_not] at h6
    simp only [Option.getD_none]
    refine ⟨by omega, by omega, ?_⟩
    simpa using h6
  | some l =>
    obtain ⟨hl8, hpl, hmin⟩ := find?_range_spec hf
    have hl1 : 1 ≤ l := by
      rcases Nat.eq_zero_or_pos l with h0 | h1
      · subst h0
        simp only [Nat.sub_zero, bne_iff_ne, ne_eq] at hpl
        exact absurd (by simpa using h) hpl
      · exact h1
    have hprev := hmin (l - 1) (by omega)
    simp only [bne_iff_ne, ne_eq] at hprev
    have hz : u / 16 ^ (7 - (l - 1)) = 16 ^ (l - 1 + 1) - 1 := by
      by_contra hc
      simp [hc] at hprev
    have h8l : 7 - (l - 1) = 8 - l := by omega
    have h1l : l - 1 + 1 = l := by omega
    rw [h8l, h1l] at hz
    simp only [Option.getD_some]
    exact ⟨hl1, by omega, hz⟩

/-- Closed form of the sign-extension initialiser: `n` leading `0xf`
nibbles at the top of a 32-bit pattern. -/
theorem onesInit_eq : ∀ n, n ≤ 8 → onesInit n = (16 ^ n - 1) * 16 ^ (8 - n)
  | 0, _ => by simp [onesInit]
  | n + 1, h => by
    have ih := onesInit_eq n (by omega)
    unfold onesInit at ih ⊢
    rw [List.range_succ, List.foldl_append, ih]
    simp only [List.foldl_cons, List.foldl_nil]
    have ht : 8 - n = (7 - n) + 1 := by omega
    have ht2 : 8 - (n + 1) = 7 - n := by omega
    have hP : 1 ≤ (16 : Nat) ^ n := Nat.one_le_pow _ _ (by norm_num)
    have hsplit : (16 ^ (n + 1) - 1) * 16 ^ (7 - n)
        = (16 ^ n - 1) * 16 ^ (8 - n) + 15 * 16 ^ (7 - n) := by
      rw [ht, pow_succ, pow_succ]
      have hP2 : 1 ≤ (16 : Nat) ^ n * 16 := by omega
      zify [hP, hP2]
      ring
    have hA2 : (16 ^ n - 1) * 16 ^ (8 - n) = 2 ^ (4 * (8 - n)) * (16 ^ n - 1) := by
      rw [Nat.mul_comm, pow16_eq]
    have hC : 15 * 16 ^ (7 - n) < 2 ^ (4 * (8 - n)) := by
      rw [← pow16_eq, ht, pow_succ]
      have : 0 < (16 : Nat) ^ (7 - n) := Nat.one_le_pow _ _ (by norm_num)
      omega
    have horC : (16 ^ n - 1) * 16 ^ (8 - n) + 15 * 16 ^ (7 - n)
        = (16 ^ n - 1) * 16 ^ (8 - n) ||| 15 * 16 ^ (7 - n) := by
      rw [hA2]
      exact Nat.mul_add_lt_is_or hC _
    rw [ht2]
    calc (16 ^ n - 1) * 16 ^ (8 - n) ||| (16 ^ (n + 1) - 1) * 16 ^ (7 - n)
        = (16 ^ n - 1) * 16 ^ (8 - n)
            ||| ((16 ^ n - 1) * 16 ^ (8 - n) + 15 * 16 ^ (7 - n)) := by rw [← hsplit]
      _ = (16 ^ n - 1) * 16 ^ (8 - n)
            ||| ((16 ^ n - 1) * 16 ^ (8 - n) ||| 15 * 16 ^ (7 - n)) := by rw [← horC]
      _ = ((16 ^ n - 1) * 16 ^ (8 - n) ||| (16 ^ n - 1) * 16 ^ (8 - n))
            ||| 15 * 16 ^ (7 - n) := (Nat.or_assoc _ _ _).symm
      _ = (16 ^ n - 1) * 16 ^ (8 - n) ||| 15 * 16 ^ (7 - n) := by rw [Nat.or_self]
      _ = (16 ^ n - 1) * 16 ^ (8 - n) + 15 * 16 ^ (7 - n) := horC.symm
      _ = (16 ^ (n + 1) - 1) * 16 ^ (7 - n) := hsplit.symm

/-! Indexing into concatenated nibble streams. -/

theorem getD_append_off (xs ys : List Nat) (j : Nat) :
    (xs ++ ys).getD (xs.length + j) 0 = ys.getD j 0 := by
  simp only [List.getD_eq_getElem?_getD]
  rw [List.getElem?_append_right (Nat.le_add_right _ _)]
  simp [Nat.add_sub_cancel_left]

theorem stream_getD (pre mid suf : List Nat) (j : Nat) :
    (pre ++ mid ++ suf).getD (pre.length + j) 0 = (mid ++ suf).getD j 0 := by
  rw [List.append_assoc]
  exact getD_append_off pre (mid ++ suf) j

theorem payload_getD (u m j : Nat) (hj : j < m) (suf : List Nat) :
    (((List.range m).map (nibOf u)) ++ suf).getD j 0 = nibOf u j := by
  simp only [List.getD_eq_getElem?_getD]
  rw [List.getElem?_append_left (by simpa using hj), List.getElem?_map,
    List.getElem?_range hj]
  rfl

/-- Zeta-expanded view of `encodeInt`. -/
theorem encodeInt_def (x : Int) :
    encodeInt x =
      if pat32 x / 16 ^ 7 = 0 then
        encLZ (pat32 x) :: (List.range (8 - encLZ (pat32 x))).map (nibOf (pat32 x))
      else if pat32 x / 16 ^ 7 = 15 then
        (encLO (pat32 x) + 8) :: (List.range (8 - encLO (pat32 x))).map (nibOf (pat32 x))
      else 0 :: (List.range 8).map (nibOf (pat32 x)) := rfl

/-- View of `decodeInt` once the header nibble is known. -/
theorem decodeInt_head {data : List Nat} {di half head di2 half2 : Nat}
    (h : readNib data di half = some (head, di2, half2)) :
    decodeInt data di half =
      if (if head ≤ 8 then head else head - 8) = 8 then
        some ((if head ≤ 8 then 0 else onesInit (head - 8)), di2, half2)
      else
        decodeIntLoop data (8 - (if head ≤ 8 then head else head - 8)) 0
          (if head ≤ 8 then 0 else onesInit (head - 8)) di2 half2 := by
  unfold decodeInt
  rw [h]

/-- Round trip of the variable-length integer codec at the nibble-stream
level: decoding from the bit position where `encodeInt x`'s nibbles start
recovers the two's-complement pattern of `x` and stops exactly after the
encoded nibbles. -/
theorem decodeInt_encodeInt (x : Int) (pre suf : List Nat) :
    decodeInt (packNibbles (pre ++ encodeInt x ++ suf)) (pre.length / 2) (pre.length % 2)
      = some (pat32 x, (pre.length + (encodeInt x).length) / 2,
          (pre.length + (encodeInt x).length) % 2) := by
  have hu8 : pat32 x < 16 ^ 8 := by
    have := pat32_lt x
    omega
  by_cases h0 : pat32 x / 16 ^ 7 = 0
  · -- leading-zero branch
    obtain ⟨hl1, hl8, hult⟩ := encLZ_spec h0
    have henc : encodeInt x
        = encLZ (pat32 x) :: (List.range (8 - encLZ (pat32 x))).map (nibOf (pat32 x)) := by
      rw [encodeInt_def, if_pos h0]
    have hlen : (encodeInt x).length = 1 + (8 - encLZ (pat32 x)) := by
      simp only [henc, List.length_cons, List.length_map, List.length_range]
      omega
    have hnslen : (pre ++ encodeInt x ++ suf).length
        = pre.length + (1 + (8 - encLZ (pat32 x))) + suf.length := by
      simp [hlen]
      omega
    have hhead : readNib (packNibbles (pre ++ encodeInt x ++ suf))
        (pre.length / 2) (pre.length % 2)
        = some (encLZ (pat32 x), (pre.length + 1) / 2, (pre.length + 1) % 2) := by
      rw [readNib_pack _ pre.length (by omega)]
      rw [show pre.length = pre.length + 0 from rfl, stream_getD, henc]
      simp only [List.cons_append, List.getD_cons_zero]
      rw [Nat.mod_eq_of_lt (by omega)]
    rcases Nat.lt_or_ge (encLZ (pat32 x)) 8 with hl7 | hl8e
    · -- 1 ≤ l ≤ 7: payload loop runs
      rw [decodeInt_head hhead, if_pos (by omega : encLZ (pat32 x) ≤ 8),
        if_neg (by omega : ¬encLZ (pat32 x) = 8), if_pos (by omega : encLZ (pat32 x) ≤ 8)]
      have hloop := decodeIntLoop_pack (pre ++ encodeInt x ++ suf) (pat32 x)
        (8 - encLZ (pat32 x)) 0 (pre.length + 1) 0
        (by omega)
        (dvd_zero _)
        (fun j hj => by
          rw [show pre.length + 1 + j = pre.length + (j + 1) from by omega, stream_getD, henc]
          simp only [List.cons_append, List.getD_cons_succ]
          rw [payload_getD _ _ _ (by omega)]
          rw [Nat.mod_eq_of_lt (nibOf_lt _ _), Nat.zero_add])
      simp only [pow_zero, Nat.mod_one, Nat.add_zero, Nat.zero_add] at hloop
      rw [hloop, Nat.mod_eq_of_lt hult, hlen, ← Nat.add_assoc]
    · -- l = 8: the value is zero and the header alone encodes it
      have hl8' : encLZ (pat32 x) = 8 := by omega
      have hu0 : pat32 x = 0 := by
        rw [hl8'] at hult
        simpa using hult
      rw [decodeInt_head hhead]
      simp only [if_pos (show encLZ (pat32 x) ≤ 8 from by omega), if_pos hl8']
      rw [hlen, hl8', hu0]
  by_cases h15 : pat32 x / 16 ^ 7 = 15
  · -- leading-ones branch
    obtain ⟨hl1, hl7, hdiv⟩ := encLO_spec h15
    have henc : encodeInt x
        = (encLO (pat32 x) + 8)
            :: (List.range (8 - encLO (pat32 x))).map (nibOf (pat32 x)) := by
      rw [encodeInt_def, if_neg h0, if_pos h15]
    have hlen : (encodeInt x).length = 1 + (8 - encLO (pat32 x)) := by
      simp only [henc, List.length_cons, List.length_map, List.length_range]
      omega
    have hnslen : (pre ++ encodeInt x ++ suf).length
        = pre.length + (1 + (8 - encLO (pat32 x))) + suf.length := by
      simp [hlen]
      omega
    have hhead : readNib (packNibbles (pre ++ encodeInt x ++ suf))
        (pre.length / 2) (pre.length % 2)
        = some (encLO (pat32 x) + 8, (pre.length + 1) / 2, (pre.length + 1) % 2) := by
      rw [readNib_pack _ pre.length (by omega)]
      rw [show pre.length = pre.length + 0 from rfl, stream_getD, henc]
      simp only [List.cons_append, List.getD_cons_zero]
      rw [Nat.mod_eq_of_lt (by omega)]
    rw [decodeInt_head hhead]
    simp only [if_neg (show ¬encLO (pat32 x) + 8 ≤ 8 from by omega), Nat.add_sub_cancel]
    rw [if_neg (show ¬encLO (pat32 x) = 8 from by omega), onesInit_eq _ (by omega)]
    have hAdvd : 2 ^ (4 * (0 + (8 - encLO (pat32 x))))
        ∣ (16 ^ encLO (pat32 x) - 1) * 16 ^ (8 - encLO (pat32 x)) := by
      rw [Nat.zero_add, ← pow16_eq]
      exact dvd_mul_left _ _
    have hloop := decodeIntLoop_pack (pre ++ encodeInt x ++ suf) (pat32 x)
      (8 - encLO (pat32 x)) 0 (pre.length + 1)
      ((16 ^ encLO (pat32 x) - 1) * 16 ^ (8 - encLO (pat32 x)))
      (by omega)
      hAdvd
      (fun j hj => by
        rw [show pre.length + 1 + j = pre.length + (j + 1) from by omega, stream_getD, henc]
        simp only [List.cons_append, List.getD_cons_succ]
        rw [payload_getD _ _ _ (by omega)]
        rw [Nat.mod_eq_of_lt (nibOf_lt _ _), Nat.zero_add])
    simp only [pow_zero, Nat.mod_one, Nat.add_zero, Nat.zero_add] at hloop
    have hval : (16 ^ encLO (pat32 x) - 1) * 16 ^ (8 - encLO (pat32 x))
        + pat32 x % 16 ^ (8 - encLO (pat32 x)) = pat32 x := by
      have hdm := Nat.div_add_mod (pat32 x) (16 ^ (8 - encLO (pat32 x)))
      rw [hdiv] at hdm
      calc (16 ^ encLO (pat32 x) - 1) * 16 ^ (8 - encLO (pat32 x))
            + pat32 x % 16 ^ (8 - encLO (pat32 x))
          = 16 ^ (8 - encLO (pat32 x)) * (16 ^ encLO (pat32 x) - 1)
            + pat32 x % 16 ^ (8 - encLO (pat32 x)) := by rw [Nat.mul_comm]
        _ = pat32 x := hdm
    rw [hloop, hval, hlen, ← Nat.add_assoc]
  · -- uncompressed branch: header 0 then all 8 nibbles
    have henc : encodeInt x = 0 :: (List.range 8).map (nibOf (pat32 x)) := by
      rw [encodeInt_def, if_neg h0, if_neg h15]
    have hlen : (encodeInt x).length = 9 := by
      simp only [henc, List.length_cons, List.length_map, List.length_range]
    have hnslen : (pre ++ encodeInt x ++ suf).length
        = pre.length + 9 + suf.length := by
      simp [hlen]
      omega
    have hhead : readNib (packNibbles (pre ++ encodeInt x ++ suf))
        (pre.length / 2) (pre.length % 2)
        = some (0, (pre.length + 1) / 2, (pre.length + 1) % 2) := by
      rw [readNib_pack _ pre.length (by omega)]
      rw [show pre.length = pre.length + 0 from rfl, stream_getD, henc]
      simp only [List.cons_append, List.getD_cons_zero]
    rw [decodeInt_head hhead]
    simp only [if_pos (show (0 : Nat) ≤ 8 from by omega),
      if_neg (show ¬(0 : Nat) = 8 from by omega)]
    have hloop := decodeIntLoop_pack (pre ++ encodeInt x ++ suf) (pat32 x)
      (8 - 0) 0 (pre.length + 1) 0
      (by omega)
      (dvd_zero _)
      (fun j hj => by
        rw [show pre.length + 1 + j = pre.length + (j + 1) from by omega, stream_getD, henc]
        simp only [List.cons_append, List.getD_cons_succ]
        rw [payload_getD _ _ _ (by omega)]
        rw [Nat.mod_eq_of_lt (nibOf_lt _ _), Nat.zero_add])
    simp only [pow_zero, Nat.mod_one, Nat.add_zero, Nat.zero_add, Nat.sub_zero] at hloop
    rw [hloop, Nat.mod_eq_of_lt hu8, hlen]

/-! The double-to-integer casts and wrapping 32-bit arithmetic used by the
linear and count codecs.  Doubles are modelled as exact rationals. -/

/-- C truncation toward zero of a floating-point value, as used by the
casts `(unsigned int)(...)` and `(size_t)(...)` in the source. -/
def truncQ (q : ℚ) : Int := if q < 0 then -Int.floor (-q) else Int.floor q

/-- The cast `(unsigned int)(expr)`: truncate toward zero, then take the
32-bit two's-complement pattern (the wrap observed on the reference
platforms for the out-of-range and negative cases, which the C standard
leaves undefined). -/
def castUInt32 (q : ℚ) : Nat := (truncQ q % (2 ^ 32)).toNat

/-- The fixed-point conversion of `encodeLinear`:
`ints[i] = data[i] * 100000 + 0.5` stored in an `unsigned int`. -/
def fixedPoint (d : ℚ) : Nat := castUInt32 (d * 100000 + 1 / 2)

/-- The cast `(size_t)(data[i] + 0.5)` of `encodeCount` (64-bit). -/
def countOf (d : ℚ) : Nat := (truncQ (d + 1 / 2) % (2 ^ 64)).toNat

/-- Wrapping 32-bit addition (C unsigned arithmetic / two's complement). -/
def wadd (a b : Nat) : Nat := (a + b) % 2 ^ 32

/-- Wrapping 32-bit subtraction on bit patterns. -/
def wsub (a b : Nat) : Nat := (a + (2 ^ 32 - b % 2 ^ 32)) % 2 ^ 32

/-- The little-endian 32-bit header words of `encodeLinear`:
`result[i] = (v >> (i*8)) & 0xff` for `i < 4`. -/
def word32LE (p : Nat) : List Nat :=
  [p % 256, p / 2 ^ 8 % 256, p / 2 ^ 16 % 256, p / 2 ^ 24 % 256]

/-- One flush of the rolling halfbyte buffer: the loop
`for (hbi=1; hbi < halfByteCount; hbi+=2) result[ri++] = (halfBytes[hbi-1] << 4) | (halfBytes[hbi] & 0xf)`
followed by the carry-over of a trailing odd nibble to `halfBytes[0]`.
Returns the bytes written and the leftover (`[]` or one nibble). -/
def emitPairs : List Nat → List Nat × List Nat
  | a :: b :: t => ((a % 16 * 16 + b % 16) :: (emitPairs t).1, (emitPairs t).2)
  | l => ([], l)

/-- The residual loop of `encodeLinear` (`for i in 2..dataSize-1`), with
`(b, c)` the current `(ints[1], ints[2])` window and `carry` the rolling
leftover nibble; the final `if (halfByteCount == 1) result[ri] = halfBytes[0] << 4`
is the `packNibbles carry` in the base case. -/
def encodeLinearLoop : Nat → Nat → List ℚ → List Nat → List Nat
  | _, _, [], carry => packNibbles carry
  | b, c, d :: rest, carry =>
    let n := fixedPoint d
    let diff := wsub n (wadd c (wsub c b))
    ((emitPairs (carry ++ encodeInt (toInt32 diff))).1)
      ++ encodeLinearLoop c n rest (emitPairs (carry ++ encodeInt (toInt32 diff))).2

/-- `encodeLinear(data, dataSize, result, resultByteCount)`: stores the
first two fixed-point values verbatim as two little-endian 32-bit words,
then nibble-encodes linear-prediction residuals.  `data[0]` and `data[1]`
are read unconditionally, so fewer than two input values is an
out-of-bounds read (`none`). -/
def encodeLinear (data : List ℚ) : Option (List Nat) :=
  match data.get? 0, data.get? 1 with
  | some d0, some d1 =>
    some (word32LE (fixedPoint d0) ++ word32LE (fixedPoint d1)
      ++ encodeLinearLoop (fixedPoint d0) (fixedPoint d1) (data.drop 2) [])
  | _, _ => none

/-- The loop of `encodeCount`: each value is rounded with `+ 0.5`, cast to
`size_t`, truncated to `int` by the `encodeInt` parameter conversion, and
nibble-encoded; the nibble buffer rolls exactly as in `encodeLinear`. -/
def encodeCountLoop : List ℚ → List Nat → List Nat
  | [], carry => packNibbles carry
  | d :: rest, carry =>
    ((emitPairs (carry ++ encodeInt (toInt32 (countOf d % 2 ^ 32)))).1)
      ++ encodeCountLoop rest (emitPairs (carry ++ encodeInt (toInt32 (countOf d % 2 ^ 32)))).2

/-- `encodeCount(data, dataSize, result, resultByteCount)`. -/
def encodeCount (data : List ℚ) : List Nat := encodeCountLoop data []

/-- The header parse of `decodeLinear`:
`ints[j] = ints[j] | ((0xff & data[off+i]) << (i*8))` for `i < 4`. -/
def readWord32 (data : List Nat) (off : Nat) : Nat :=
  (List.range 4).foldl (fun acc i => acc ||| (data.getD (off + i) 0 % 256) <<< (i * 8)) 0

/-- The `while (di < dataSize)` loop of `decodeLinear`, with `(a, b)` the
`(ints[1], ints[2])` window at loop entry.  The last-byte special case is
taken verbatim: with exactly one nibble left (`di == dataSize-1 && half == 1`),
a low nibble different from `0x8` stops the loop, otherwise the nibble is
decoded.  Fuel bounds the iteration count (each iteration consumes at
least one nibble, so `2 * data.length + 1` always suffices). -/
def decodeLinearLoop (data : List Nat) : Nat → Nat → Nat → Nat → Nat → Option (List ℚ)
  | 0, _, _, _, _ => none
  | fuel + 1, a, b, di, half =>
    if di < data.length then
      if di = data.length - 1 ∧ half = 1 ∧ data.getD di 0 % 16 ≠ 8 then some []
      else
        match decodeInt data di half with
        | none => none
        | some (d, di2, half2) =>
          match decodeLinearLoop data fuel b (wadd (wadd b (wsub b a)) d) di2 half2 with
          | none => none
          | some rest =>
            some (((toInt32 (wadd (wadd b (wsub b a)) d) : ℚ) / 100000) :: rest)
    else some []

/-- `decodeLinear(data, result)`: reads the two 32-bit fixed-point header
words (an out-of-bounds read, hence `none`, when fewer than 8 bytes are
present), emits them divided by `100000.0`, then runs the residual loop. -/
def decodeLinear (data : List Nat) : Option (List ℚ) :=
  if data.length < 8 then none
  else
    match decodeLinearLoop data (2 * data.length + 1) (readWord32 data 0) (readWord32 data 4) 8 0 with
    | none => none
    | some rest =>
      some (((toInt32 (readWord32 data 0) : ℚ) / 100000)
        :: ((toInt32 (readWord32 data 4) : ℚ) / 100000) :: rest)

/-- The `while (di < dataSize)` loop of `decodeCount`: identical cursor and
last-byte handling to `decodeLinear`, but each decoded `int` is stored
directly (`result[ri++] = count` with `count` a signed `int`). -/
def decodeCountLoop (data : List Nat) : Nat → Nat → Nat → Option (List ℚ)
  | 0, _, _ => none
  | fuel + 1, di, half =>
    if di < data.length then
      if di = data.length - 1 ∧ half = 1 ∧ data.getD di 0 % 16 ≠ 8 then some []
      else
        match decodeInt data di half with
        | none => none
        | some (d, di2, half2) =>
          match decodeCountLoop data fuel di2 half2 with
          | none => none
          | some rest => some ((toInt32 d : ℚ) :: rest)
    else some []

/-- `decodeCount(data, result)`. -/
def decodeCount (data : List Nat) : Option (List ℚ) :=
  decodeCountLoop data (2 * data.length + 1) 0 0

/-- `encode2ByteFloat`: each value is mapped to an `unsigned short`
`fp = log(data[i]) * 3000.0 + 0.5` and stored as two little-endian raw
bytes (`fp & 0xff`, `fp >> 8`).  The transcendental quantiser
`log(d) * 3000.0 + 0.5` has no exact counterpart on `ℚ`, so it is
abstracted as the parameter `fpOf` (reduced mod `2^16` for the
`unsigned short` width); the byte-level structure is from the source and
is independent of the quantiser. -/
def encode2ByteFloat (fpOf : ℚ → Nat) : List ℚ → List Nat
  | [] => []
  | d :: rest => fpOf d % 2 ^ 16 % 256 :: fpOf d % 2 ^ 16 / 256 :: encode2ByteFloat fpOf rest

/-- The pair loop of `decode2ByteFloat`:
`fp = data[i] | (data[i+1] << 8); result[ri++] = exp(fp / 3000.0)`, with
the transcendental inverse abstracted as `unfp`. -/
def decode2Go (unfp : Nat → ℚ) : List Nat → List ℚ
  | a :: b :: t => unfp (a ||| b <<< 8) :: decode2Go unfp t
  | _ => []

/-- `decode2ByteFloat(data, result)`: iterates in steps of two over the
byte buffer.  On an odd byte count the final iteration reads
`data[dataSize]` and writes one element past the resized result buffer —
out of bounds, modelled as `none`. -/
def decode2ByteFloat (unfp : Nat → ℚ) (data : List Nat) : Option (List ℚ) :=
  if data.length % 2 = 0 then some (decode2Go unfp data) else none

/-! Structural facts about `encodeInt`'s output. -/

/-- The count `l` of elided leading sign nibbles, as computed by the
branches of `encodeInt`. -/
def headerTrim (x : Int) : Nat :=
  if pat32 x / 16 ^ 7 = 0 then encLZ (pat32 x)
  else if pat32 x / 16 ^ 7 = 15 then encLO (pat32 x)
  else 0

theorem encodeInt_length (x : Int) : (encodeInt x).length = 1 + (8 - headerTrim x) := by
  rw [encodeInt_def, headerTrim]
  split_ifs <;> simp [List.length_cons, List.length_map, List.length_range] <;> omega

theorem headerTrim_le (x : Int) : headerTrim x ≤ 8 := by
  rw [headerTrim]
  split_ifs with h1 h2
  · exact encLZ_le _
  · exact (encLO_le _).trans (by omega)
  · omega

theorem encodeInt_length_le (x : Int) :
    1 ≤ (encodeInt x).length ∧ (encodeInt x).length ≤ 9 := by
  rw [encodeInt_length]
  have := headerTrim_le x
  omega

theorem encodeInt_len_one {x : Int} (h : (encodeInt x).length = 1) :
    encodeInt x = [8] := by
  rw [encodeInt_length] at h
  have hle := headerTrim_le x
  have h8 : headerTrim x = 8 := by omega
  rw [encodeInt_def]
  rw [headerTrim] at h8
  by_cases h1 : pat32 x / 16 ^ 7 = 0
  · rw [if_pos h1]
    rw [if_pos h1] at h8
    rw [h8]
    rfl
  · rw [if_neg h1] at h8 ⊢
    by_cases h2 : pat32 x / 16 ^ 7 = 15
    · rw [if_pos h2] at h8
      have := encLO_le (pat32 x)
      omega
    · rw [if_neg h2] at h8
      omega

/-! The rolling halfbyte pack equals the one-shot pack of the
concatenated nibble stream. -/

theorem packNibbles_emitPairs : ∀ (zs rest : List Nat),
    packNibbles (zs ++ rest) = (emitPairs zs).1 ++ packNibbles ((emitPairs zs).2 ++ rest)
  | [], rest => rfl
  | [a], rest => rfl
  | a :: b :: t, rest => by
    have ih := packNibbles_emitPairs t rest
    by_cases ht : t ++ rest = []
    · have ht2 : t = [] ∧ rest = [] := by
        constructor <;> [skip; skip] <;> cases t <;> cases rest <;> simp_all
      rw [ht2.1, ht2.2]
      rfl
    · rw [show (a :: b :: t) ++ rest = a :: b :: (t ++ rest) from rfl]
      rw [show packNibbles (a :: b :: (t ++ rest)) = (a % 16 * 16 + b % 16) :: packNibbles (t ++ rest) from rfl]
      rw [ih]
      rfl

/-- The per-value residual nibble stream of `encodeLinear`:
`(b, c)` is the `(ints[1], ints[2])` sliding window. -/
def linearNibbles : Nat → Nat → List ℚ → List Nat
  | _, _, [] => []
  | b, c, d :: rest =>
    encodeInt (toInt32 (wsub (fixedPoint d) (wadd c (wsub c b))))
      ++ linearNibbles c (fixedPoint d) rest

theorem encodeLinearLoop_eq : ∀ (rest : List ℚ) (b c : Nat) (carry : List Nat),
    encodeLinearLoop b c rest carry = packNibbles (carry ++ linearNibbles b c rest)
  | [], b, c, carry => by
    rw [encodeLinearLoop, linearNibbles, List.append_nil]
  | d :: rest, b, c, carry => by
    rw [encodeLinearLoop, linearNibbles, encodeLinearLoop_eq rest, ← packNibbles_emitPairs,
      List.append_assoc]

/-- The per-value nibble stream of `encodeCount`. -/
def countNibbles : List ℚ → List Nat
  | [] => []
  | d :: rest => encodeInt (toInt32 (countOf d % 2 ^ 32)) ++ countNibbles rest

theorem encodeCountLoop_eq : ∀ (rest : List ℚ) (carry : List Nat),
    encodeCountLoop rest carry = packNibbles (carry ++ countNibbles rest)
  | [], carry => by
    rw [encodeCountLoop, countNibbles, List.append_nil]
  | d :: rest, carry => by
    rw [encodeCountLoop, countNibbles, encodeCountLoop_eq rest, ← packNibbles_emitPairs,
      List.append_assoc]

/-! Lengths and final bytes of packed streams. -/

theorem packNibbles_length : ∀ ns : List Nat,
    (packNibbles ns).length = (ns.length + 1) / 2
  | [] => rfl
  | [a] => by
    rw [show packNibbles [a] = [a % 16 * 16] from rfl]
    norm_num
  | a :: b :: t => by
    rw [show packNibbles (a :: b :: t) = (a % 16 * 16 + b % 16) :: packNibbles t from rfl]
    simp only [List.length_cons, packNibbles_length t]
    omega

theorem packNibbles_odd_last : ∀ ns : List Nat, ns.length % 2 = 1 →
    (packNibbles ns).getD (ns.length / 2) 0 % 16 = 0
  | [], h => by simp at h
  | [a], _ => by
    rw [show packNibbles [a] = [a % 16 * 16] from rfl,
      show ([a] : List Nat).length / 2 = 0 from by norm_num, List.getD_cons_zero]
    omega
  | a :: b :: t, h => by
    have ht : t.length % 2 = 1 := by
      simp only [List.length_cons] at h
      omega
    have ih := packNibbles_odd_last t ht
    rw [show packNibbles (a :: b :: t) = (a % 16 * 16 + b % 16) :: packNibbles t from rfl]
    have hd : (a :: b :: t).length / 2 = t.length / 2 + 1 := by
      simp only [List.length_cons]
      omega
    rw [hd, List.getD_cons_succ]
    exact ih

/-! Shifting a decode by a byte prefix. -/

theorem readNib_shift (P B : List Nat) (d h : Nat) :
    readNib (P ++ B) (P.length + d) h
      = (readNib B d h).map (fun r => (r.1, P.length + r.2.1, r.2.2)) := by
  cases hg : B.get? d with
  | none =>
    rw [readNib_none h hg, readNib_none h ?_]
    · rfl
    · simp only [List.get?_eq_getElem?] at hg ⊢
      rw [List.getElem?_append_right (Nat.le_add_right _ _), Nat.add_sub_cancel_left]
      exact hg
  | some v =>
    rw [readNib_some h hg, readNib_some h (?_ : (P ++ B).get? (P.length + d) = some v)]
    · by_cases hh : h = 0 <;> simp [hh, Nat.add_assoc]
    · simp only [List.get?_eq_getElem?] at hg ⊢
      rw [List.getElem?_append_right (Nat.le_add_right _ _), Nat.add_sub_cancel_left]
      exact hg

theorem decodeIntLoop_shift (P B : List Nat) : ∀ (m sh acc d h : Nat),
    decodeIntLoop (P ++ B) m sh acc (P.length + d) h
      = (decodeIntLoop B m sh acc d h).map (fun r => (r.1, P.length + r.2.1, r.2.2))
  | 0, sh, acc, d, h => rfl
  | m + 1, sh, acc, d, h => by
    rw [decodeIntLoop, decodeIntLoop, readNib_shift]
    cases readNib B d h with
    | none => rfl
    | some r =>
      obtain ⟨hb, d2, h2⟩ := r
      exact decodeIntLoop_shift P B m (sh + 1) (acc ||| hb <<< (sh * 4)) d2 h2

theorem decodeInt_shift (P B : List Nat) (d h : Nat) :
    decodeInt (P ++ B) (P.length + d) h
      = (decodeInt B d h).map (fun r => (r.1, P.length + r.2.1, r.2.2)) := by
  rw [decodeInt, decodeInt, readNib_shift]
  cases readNib B d h with
  | none => rfl
  | some r =>
    obtain ⟨head, d2, h2⟩ := r
    simp only [Option.map_some']
    by_cases h8 : (if head ≤ 8 then head else head - 8) = 8
    · rw [if_pos h8, if_pos h8]
      rfl
    · rw [if_neg h8, if_neg h8]
      exact decodeIntLoop_shift P B _ 0 _ d2 h2

/-! Wrapping arithmetic round-trip facts. -/

theorem wadd_lt (a b : Nat) : wadd a b < 2 ^ 32 := Nat.mod_lt _ (by norm_num)

theorem wsub_lt (a b : Nat) : wsub a b < 2 ^ 32 := Nat.mod_lt _ (by norm_num)

theorem castUInt32_lt (q : ℚ) : castUInt32 q < 2 ^ 32 := by
  unfold castUInt32
  omega

theorem fixedPoint_lt (d : ℚ) : fixedPoint d < 2 ^ 32 := castUInt32_lt _

/-- Reconstruction: `extrapol + (value - extrapol) = value` in wrapping
32-bit arithmetic. -/
theorem wadd_wsub_cancel (e c : Nat) (hc : c < 2 ^ 32) : wadd e (wsub c e) = c := by
  unfold wadd wsub
  omega

/-! Specification of the decode loops on encoded streams. -/

/-- The `decodeCount` loop, run from nibble position `K.length` on the
packed stream whose remaining nibbles encode the counts of `ws`, decodes
exactly those counts (as the signed `int` values the source stores into
the `double` output) and then terminates via the trailing-padding
heuristic. -/
theorem decodeCountLoop_spec : ∀ (ws : List ℚ) (K : List Nat) (fuel : Nat),
    ws.length + 1 ≤ fuel →
    decodeCountLoop (packNibbles (K ++ countNibbles ws)) fuel (K.length / 2) (K.length % 2)
      = some (ws.map fun d => (toInt32 (countOf d % 2 ^ 32) : ℚ))
  | [], K, fuel, hfuel => by
    obtain ⟨f, rfl⟩ : ∃ f, fuel = f + 1 := ⟨fuel - 1, by omega⟩
    have hK : K ++ countNibbles [] = K := by
      rw [countNibbles, List.append_nil]
    rw [hK, decodeCountLoop]
    have hlen := packNibbles_length K
    by_cases hpar : K.length % 2 = 1
    · have hc : K.length / 2 = (packNibbles K).length - 1 ∧ K.length % 2 = 1
          ∧ (packNibbles K).getD (K.length / 2) 0 % 16 ≠ 8 := by
        refine ⟨by omega, hpar, ?_⟩
        have := packNibbles_odd_last K hpar
        omega
      rw [if_pos (show K.length / 2 < (packNibbles K).length from by omega), if_pos hc]
      simp
    · rw [if_neg (show ¬K.length / 2 < (packNibbles K).length from by omega)]
      simp
  | d :: ws, K, fuel, hfuel => by
    obtain ⟨f, rfl⟩ : ∃ f, fuel = f + 1 := ⟨fuel - 1, by omega⟩
    simp only [List.length_cons] at hfuel
    have hns : K ++ countNibbles (d :: ws)
        = K ++ encodeInt (toInt32 (countOf d % 2 ^ 32)) ++ countNibbles ws := by
      rw [countNibbles, ← List.append_assoc]
    rw [hns, decodeCountLoop]
    have hlen := packNibbles_length (K ++ encodeInt (toInt32 (countOf d % 2 ^ 32)) ++ countNibbles ws)
    have hlens : (K ++ encodeInt (toInt32 (countOf d % 2 ^ 32)) ++ countNibbles ws).length
        = K.length + (encodeInt (toInt32 (countOf d % 2 ^ 32))).length
          + (countNibbles ws).length := by
      simp
      omega
    have he := encodeInt_length_le (toInt32 (countOf d % 2 ^ 32))
    rw [if_pos (show K.length / 2
      < (packNibbles (K ++ encodeInt (toInt32 (countOf d % 2 ^ 32)) ++ countNibbles ws)).length
      from by omega)]
    have hdec := decodeInt_encodeInt (toInt32 (countOf d % 2 ^ 32)) K (countNibbles ws)
    have hcond : ¬(K.length / 2
        = (packNibbles (K ++ encodeInt (toInt32 (countOf d % 2 ^ 32)) ++ countNibbles ws)).length - 1
        ∧ K.length % 2 = 1
        ∧ (packNibbles (K ++ encodeInt (toInt32 (countOf d % 2 ^ 32)) ++ countNibbles ws)).getD
            (K.length / 2) 0 % 16 ≠ 8) := by
      rintro ⟨hc1, hc2, hc3⟩
      apply hc3
      have hr1 : (encodeInt (toInt32 (countOf d % 2 ^ 32))).length = 1
          ∧ (countNibbles ws).length = 0 := by omega
      have henc8 : encodeInt (toInt32 (countOf d % 2 ^ 32)) = [8] := encodeInt_len_one hr1.1
      have hws0 : countNibbles ws = [] := List.length_eq_zero.mp hr1.2
      have hk8 : (K ++ encodeInt (toInt32 (countOf d % 2 ^ 32)) ++ countNibbles ws).getD
          K.length 0 = 8 := by
        rw [henc8, hws0, List.append_nil,
          show K.length = K.length + 0 from rfl, getD_append_off]
        rfl
      have hklen : K.length
          < (K ++ encodeInt (toInt32 (countOf d % 2 ^ 32)) ++ countNibbles ws).length := by
        omega
      have hrn := readNib_pack _ K.length hklen
      rw [hk8] at hrn
      cases hg : (packNibbles (K ++ encodeInt (toInt32 (countOf d % 2 ^ 32)) ++ countNibbles ws)).get?
          (K.length / 2) with
      | none =>
        rw [readNib_none (K.length % 2) hg] at hrn
        exact absurd hrn (by simp)
      | some b =>
        rw [readNib_some (K.length % 2) hg, hc2, if_neg (by omega)] at hrn
        have hb : b % 16 = 8 % 16 := by
          have := Option.some.injEq _ _ ▸ hrn
          exact congrArg Prod.fst this
        have hgd : (packNibbles (K ++ encodeInt (toInt32 (countOf d % 2 ^ 32)) ++ countNibbles ws)).getD
            (K.length / 2) 0 = b := by
          rw [List.getD_eq_getElem?_getD, ← List.get?_eq_getElem?, hg]
          rfl
        omega
    rw [if_neg hcond, hdec]
    have hpat : pat32 (toInt32 (countOf d % 2 ^ 32)) = countOf d % 2 ^ 32 :=
      pat32_toInt32 (Nat.mod_lt _ (by norm_num))
    have hih := decodeCountLoop_spec ws (K ++ encodeInt (toInt32 (countOf d % 2 ^ 32))) f
      (by omega)
    rw [List.length_append] at hih
    have hns2 : (K ++ encodeInt (toInt32 (countOf d % 2 ^ 32))) ++ countNibbles ws
        = K ++ encodeInt (toInt32 (countOf d % 2 ^ 32)) ++ countNibbles ws := rfl
    rw [hns2] at hih
    dsimp only
    rw [hih]
    dsimp only
    rw [hpat]
    simp

theorem countNibbles_len : ∀ ws : List ℚ,
    ws.length ≤ (countNibbles ws).length ∧ (countNibbles ws).length ≤ 9 * ws.length
  | [] => by simp [countNibbles]
  | d :: ws => by
    have ih := countNibbles_len ws
    have he := encodeInt_length_le (toInt32 (countOf d % 2 ^ 32))
    rw [countNibbles]
    simp only [List.length_cons, List.length_append]
    omega

/-- Full count-codec round trip at the pattern level: decoding what
`encodeCount` wrote yields, for each input, the signed-`int` value of the
32-bit pattern of `(size_t)(data[i] + 0.5)`. -/
theorem decodeCount_encodeCount (ws : List ℚ) :
    decodeCount (encodeCount ws)
      = some (ws.map fun d => (toInt32 (countOf d % 2 ^ 32) : ℚ)) := by
  have hlb := (countNibbles_len ws).1
  have hplen := packNibbles_length (countNibbles ws)
  have hspec := decodeCountLoop_spec ws []
    (2 * (packNibbles (countNibbles ws)).length + 1) (by omega)
  simp only [List.nil_append, List.length_nil] at hspec
  rw [decodeCount, encodeCount, encodeCountLoop_eq]
  simp only [List.nil_append]
  simpa using hspec

theorem linearNibbles_len : ∀ (ws : List ℚ) (a b : Nat),
    ws.length ≤ (linearNibbles a b ws).length
      ∧ (linearNibbles a b ws).length ≤ 9 * ws.length
  | [], a, b => by simp [linearNibbles]
  | d :: ws, a, b => by
    have ih := linearNibbles_len ws b (fixedPoint d)
    have he := encodeInt_length_le
      (toInt32 (wsub (fixedPoint d) (wadd b (wsub b a))))
    rw [linearNibbles]
    simp only [List.length_cons, List.length_append]
    omega

/-- The `decodeLinear` loop, run from nibble position `K.length` (past an
8-byte header `H`) on the packed stream whose remaining nibbles are the
residual encodings of `ws` relative to the prediction window `(a, b)`,
reconstructs exactly the fixed-point patterns of `ws` and terminates via
the trailing-padding heuristic. -/
theorem decodeLinearLoop_spec : ∀ (ws : List ℚ) (a b : Nat) (K H : List Nat) (fuel : Nat),
    H.length = 8 → ws.length + 1 ≤ fuel →
    decodeLinearLoop (H ++ packNibbles (K ++ linearNibbles a b ws)) fuel a b
      (8 + K.length / 2) (K.length % 2)
      = some (ws.map fun d => ((toInt32 (fixedPoint d) : ℚ) / 100000))
  | [], a, b, K, H, fuel, hH, hfuel => by
    obtain ⟨f, rfl⟩ : ∃ f, fuel = f + 1 := ⟨fuel - 1, by omega⟩
    have hK : K ++ linearNibbles a b [] = K := by
      rw [linearNibbles, List.append_nil]
    rw [hK, decodeLinearLoop]
    have hlen := packNibbles_length K
    have hdlen : (H ++ packNibbles K).length = 8 + (packNibbles K).length := by
      simp [hH]
    by_cases hpar : K.length % 2 = 1
    · have hc : 8 + K.length / 2 = (H ++ packNibbles K).length - 1 ∧ K.length % 2 = 1
          ∧ (H ++ packNibbles K).getD (8 + K.length / 2) 0 % 16 ≠ 8 := by
        refine ⟨by omega, hpar, ?_⟩
        rw [← hH, getD_append_off]
        have := packNibbles_odd_last K hpar
        omega
      rw [if_pos (show 8 + K.length / 2 < (H ++ packNibbles K).length from by omega),
        if_pos hc]
      simp
    · rw [if_neg (show ¬8 + K.length / 2 < (H ++ packNibbles K).length from by omega)]
      simp
  | d :: ws, a, b, K, H, fuel, hH, hfuel => by
    obtain ⟨f, rfl⟩ : ∃ f, fuel = f + 1 := ⟨fuel - 1, by omega⟩
    simp only [List.length_cons] at hfuel
    have hns : K ++ linearNibbles a b (d :: ws)
        = K ++ encodeInt (toInt32 (wsub (fixedPoint d) (wadd b (wsub b a))))
          ++ linearNibbles b (fixedPoint d) ws := by
      rw [linearNibbles, ← List.append_assoc]
    rw [hns, decodeLinearLoop]
    have hlen := packNibbles_length (K ++ encodeInt (toInt32 (wsub (fixedPoint d) (wadd b (wsub b a))))
      ++ linearNibbles b (fixedPoint d) ws)
    have hlens : (K ++ encodeInt (toInt32 (wsub (fixedPoint d) (wadd b (wsub b a))))
        ++ linearNibbles b (fixedPoint d) ws).length
        = K.length + (encodeInt (toInt32 (wsub (fixedPoint d) (wadd b (wsub b a))))).length
          + (linearNibbles b (fixedPoint d) ws).length := by
      simp
      omega
    have he := encodeInt_length_le (toInt32 (wsub (fixedPoint d) (wadd b (wsub b a))))
    have hdlen : (H ++ packNibbles (K ++ encodeInt (toInt32 (wsub (fixedPoint d) (wadd b (wsub b a))))
        ++ linearNibbles b (fixedPoint d) ws)).length
        = 8 + (packNibbles (K ++ encodeInt (toInt32 (wsub (fixedPoint d) (wadd b (wsub b a))))
          ++ linearNibbles b (fixedPoint d) ws)).length := by
      simp [hH]
    rw [if_pos (show 8 + K.length / 2
      < (H ++ packNibbles (K ++ encodeInt (toInt32 (wsub (fixedPoint d) (wadd b (wsub b a))))
        ++ linearNibbles b (fixedPoint d) ws)).length from by omega)]
    have hcond : ¬(8 + K.length / 2
        = (H ++ packNibbles (K ++ encodeInt (toInt32 (wsub (fixedPoint d) (wadd b (wsub b a))))
          ++ linearNibbles b (fixedPoint d) ws)).length - 1
        ∧ K.length % 2 = 1
        ∧ (H ++ packNibbles (K ++ encodeInt (toInt32 (wsub (fixedPoint d) (wadd b (wsub b a))))
            ++ linearNibbles b (fixedPoint d) ws)).getD (8 + K.length / 2) 0 % 16 ≠ 8) := by
      rintro ⟨hc1, hc2, hc3⟩
      apply hc3
      have hr1 : (encodeInt (toInt32 (wsub (fixedPoint d) (wadd b (wsub b a))))).length = 1
          ∧ (linearNibbles b (fixedPoint d) ws).length = 0 := by omega
      have henc8 := encodeInt_len_one hr1.1
      have hws0 : linearNibbles b (fixedPoint d) ws = [] := List.length_eq_zero.mp hr1.2
      have hk8 : (K ++ encodeInt (toInt32 (wsub (fixedPoint d) (wadd b (wsub b a))))
          ++ linearNibbles b (fixedPoint d) ws).getD K.length 0 = 8 := by
        rw [henc8, hws0, List.append_nil,
          show K.length = K.length + 0 from rfl, getD_append_off]
        rfl
      have hklen : K.length
          < (K ++ encodeInt (toInt32 (wsub (fixedPoint d) (wadd b (wsub b a))))
            ++ linearNibbles b (fixedPoint d) ws).length := by
        omega
      have hrn := readNib_pack _ K.length hklen
      rw [hk8] at hrn
      rw [← hH, getD_append_off]
      cases hg : (packNibbles (K ++ encodeInt (toInt32 (wsub (fixedPoint d) (wadd b (wsub b a))))
          ++ linearNibbles b (fixedPoint d) ws)).get? (K.length / 2) with
      | none =>
        rw [readNib_none (K.length % 2) hg] at hrn
        exact absurd hrn (by simp)
      | some v =>
        rw [readNib_some (K.length % 2) hg, hc2, if_neg (by omega)] at hrn
        have hb : v % 16 = 8 % 16 := by
          have := Option.some.injEq _ _ ▸ hrn
          exact congrArg Prod.fst this
        have hgd : (packNibbles (K ++ encodeInt (toInt32 (wsub (fixedPoint d) (wadd b (wsub b a))))
            ++ linearNibbles b (fixedPoint d) ws)).getD (K.length / 2) 0 = v := by
          rw [List.getD_eq_getElem?_getD, ← List.get?_eq_getElem?, hg]
          rfl
        omega
    rw [if_neg hcond]
    have hdec0 := decodeInt_encodeInt (toInt32 (wsub (fixedPoint d) (wadd b (wsub b a)))) K
      (linearNibbles b (fixedPoint d) ws)
    have hdec : decodeInt (H ++ packNibbles (K ++ encodeInt (toInt32 (wsub (fixedPoint d) (wadd b (wsub b a))))
        ++ linearNibbles b (fixedPoint d) ws)) (8 + K.length / 2) (K.length % 2)
        = some (pat32 (toInt32 (wsub (fixedPoint d) (wadd b (wsub b a)))),
            8 + (K.length + (encodeInt (toInt32 (wsub (fixedPoint d) (wadd b (wsub b a))))).length) / 2,
            (K.length + (encodeInt (toInt32 (wsub (fixedPoint d) (wadd b (wsub b a))))).length) % 2) := by
      rw [show 8 + K.length / 2 = H.length + K.length / 2 from by omega, decodeInt_shift, hdec0, hH]
      rfl
    rw [hdec]
    dsimp only
    have hpat : pat32 (toInt32 (wsub (fixedPoint d) (wadd b (wsub b a))))
        = wsub (fixedPoint d) (wadd b (wsub b a)) := pat32_toInt32 (wsub_lt _ _)
    have hy : wadd (wadd b (wsub b a)) (pat32 (toInt32 (wsub (fixedPoint d) (wadd b (wsub b a)))))
        = fixedPoint d := by
      rw [hpat]
      exact wadd_wsub_cancel _ _ (fixedPoint_lt d)
    have hih := decodeLinearLoop_spec ws b (fixedPoint d)
      (K ++ encodeInt (toInt32 (wsub (fixedPoint d) (wadd b (wsub b a))))) H f hH (by omega)
    rw [List.length_append] at hih
    rw [show (K ++ encodeInt (toInt32 (wsub (fixedPoint d) (wadd b (wsub b a)))))
        ++ linearNibbles b (fixedPoint d) ws
        = K ++ encodeInt (toInt32 (wsub (fixedPoint d) (wadd b (wsub b a))))
          ++ linearNibbles b (fixedPoint d) ws from rfl] at hih
    rw [hy, hih]
    dsimp only
    rw [List.map_cons]

/-! Reading back the little-endian 32-bit header words. -/

theorem or_small (a c k : Nat) (h : a < 2 ^ k) : a ||| c <<< k = c * 2 ^ k + a := by
  rw [Nat.shiftLeft_eq, Nat.or_comm, Nat.mul_comm c]
  exact (Nat.mul_add_lt_is_or h c).symm

theorem word32LE_length (p : Nat) : (word32LE p).length = 4 := rfl

theorem readWord32_at (pre : List Nat) (p : Nat) (hp : p < 2 ^ 32) (rest : List Nat) :
    readWord32 (pre ++ word32LE p ++ rest) pre.length = p := by
  have hb : ∀ j, (pre ++ word32LE p ++ rest).getD (pre.length + j) 0
      = (word32LE p ++ rest).getD j 0 := fun j => stream_getD pre (word32LE p) rest j
  rw [readWord32, show List.range 4 = [0, 1, 2, 3] from rfl]
  simp only [List.foldl_cons, List.foldl_nil]
  rw [hb 0, hb 1, hb 2, hb 3]
  rw [show (word32LE p ++ rest).getD 0 0 = p % 256 from rfl,
    show (word32LE p ++ rest).getD 1 0 = p / 2 ^ 8 % 256 from rfl,
    show (word32LE p ++ rest).getD 2 0 = p / 2 ^ 16 % 256 from rfl,
    show (word32LE p ++ rest).getD 3 0 = p / 2 ^ 24 % 256 from rfl]
  have hmm : ∀ x : Nat, x % 256 % 256 = x % 256 := fun x => Nat.mod_mod_of_dvd x dvd_rfl
  simp only [hmm, show (0 : Nat) * 8 = 0 from rfl, show (1 : Nat) * 8 = 8 from rfl,
    show (2 : Nat) * 8 = 16 from rfl, show (3 : Nat) * 8 = 24 from rfl,
    Nat.shiftLeft_zero, Nat.zero_or]
  rw [or_small _ _ _ (show p % 256 < 2 ^ 8 from by omega)]
  rw [or_small _ _ _ (show p / 2 ^ 8 % 256 * 2 ^ 8 + p % 256 < 2 ^ 16 from by omega)]
  rw [or_small _ _ _ (show p / 2 ^ 16 % 256 * 2 ^ 16 + (p / 2 ^ 8 % 256 * 2 ^ 8 + p % 256)
      < 2 ^ 24 from by omega)]
  omega

/-- Full linear-codec round trip at the pattern level: for at least two
input values, decoding what `encodeLinear` wrote yields, for every input
value, the signed-`int` reading of its 32-bit fixed-point pattern divided
by `100000.0`. -/
theorem decodeLinear_encodeLinear (data : List ℚ) (h2 : 2 ≤ data.length) :
    ∃ bs, encodeLinear data = some bs ∧
      decodeLinear bs = some (data.map fun d => ((toInt32 (fixedPoint d) : ℚ) / 100000)) := by
  obtain ⟨d0, d1, rest, rfl⟩ : ∃ d0 d1 rest, data = d0 :: d1 :: rest := by
    cases data with
    | nil => simp at h2
    | cons x t =>
      cases t with
      | nil => simp at h2
      | cons y t2 => exact ⟨x, y, t2, rfl⟩
  have henc : encodeLinear (d0 :: d1 :: rest)
      = some (word32LE (fixedPoint d0) ++ word32LE (fixedPoint d1)
        ++ packNibbles (linearNibbles (fixedPoint d0) (fixedPoint d1) rest)) := by
    rw [encodeLinear]
    simp only [List.get?]
    rw [encodeLinearLoop_eq]
    simp only [List.nil_append, List.drop_succ_cons, List.drop_zero]
  refine ⟨_, henc, ?_⟩
  have hlb := (linearNibbles_len rest (fixedPoint d0) (fixedPoint d1)).1
  have hplen := packNibbles_length (linearNibbles (fixedPoint d0) (fixedPoint d1) rest)
  have hlen : (word32LE (fixedPoint d0) ++ word32LE (fixedPoint d1)
      ++ packNibbles (linearNibbles (fixedPoint d0) (fixedPoint d1) rest)).length
      = 8 + (packNibbles (linearNibbles (fixedPoint d0) (fixedPoint d1) rest)).length := by
    simp [word32LE]
    omega
  rw [decodeLinear, if_neg (by omega)]
  have hw1 : readWord32 (word32LE (fixedPoint d0) ++ word32LE (fixedPoint d1)
      ++ packNibbles (linearNibbles (fixedPoint d0) (fixedPoint d1) rest)) 0
      = fixedPoint d0 := by
    have := readWord32_at [] (fixedPoint d0) (fixedPoint_lt d0)
      (word32LE (fixedPoint d1) ++ packNibbles (linearNibbles (fixedPoint d0) (fixedPoint d1) rest))
    simp only [List.nil_append, List.length_nil] at this
    rw [List.append_assoc]
    exact this
  have hw2 : readWord32 (word32LE (fixedPoint d0) ++ word32LE (fixedPoint d1)
      ++ packNibbles (linearNibbles (fixedPoint d0) (fixedPoint d1) rest)) 4
      = fixedPoint d1 := by
    have := readWord32_at (word32LE (fixedPoint d0)) (fixedPoint d1) (fixedPoint_lt d1)
      (packNibbles (linearNibbles (fixedPoint d0) (fixedPoint d1) rest))
    rw [word32LE_length] at this
    exact this
  rw [hw1, hw2]
  have hH : (word32LE (fixedPoint d0) ++ word32LE (fixedPoint d1)).length = 8 := by
    simp [word32LE]
  have hspec := decodeLinearLoop_spec rest (fixedPoint d0) (fixedPoint d1) []
    (word32LE (fixedPoint d0) ++ word32LE (fixedPoint d1))
    (2 * (word32LE (fixedPoint d0) ++ word32LE (fixedPoint d1)
      ++ packNibbles (linearNibbles (fixedPoint d0) (fixedPoint d1) rest)).length + 1)
    hH (by omega)
  simp only [List.nil_append, List.length_nil, Nat.zero_div, Nat.zero_mod, Nat.add_zero] at hspec
  rw [List.append_assoc] at hspec ⊢
  rw [hspec]
  simp

/-! Value-level facts: what the casts do on the claimed input ranges. -/

theorem countOf_int (n : Nat) (hn : n < 2 ^ 64) : countOf (n : ℚ) = n := by
  have hfl : ⌊(n : ℚ) + 1 / 2⌋ = (n : Int) := by
    rw [Int.floor_eq_iff]
    constructor
    · push_cast
      linarith
    · push_cast
      linarith
  rw [countOf, truncQ, if_neg (not_lt.mpr (by positivity)), hfl,
    Int.emod_eq_of_lt (by positivity) (by exact_mod_cast hn)]
  simp

/-- On `[0, (2^31 - 1)/100000]` the fixed-point pattern is the floor of
`q * 100000 + 1/2`, it stays below `2^31`, and the decoded value
`toInt32 pattern / 100000` is within `5e-6` of `q`. -/
theorem linear_val_spec (q : ℚ) (h0 : 0 ≤ q) (h1 : q ≤ (2 ^ 31 - 1) / 100000) :
    fixedPoint q < 2 ^ 31
      ∧ |((toInt32 (fixedPoint q) : ℚ) / 100000) - q| ≤ 1 / 200000 := by
  have hx : (0 : ℚ) ≤ q * 100000 + 1 / 2 := by positivity
  have hfl0 : 0 ≤ ⌊q * 100000 + 1 / 2⌋ := Int.floor_nonneg.mpr hx
  have hqb : q * 100000 ≤ 2 ^ 31 - 1 := by
    have := mul_le_mul_of_nonneg_right h1 (show (0 : ℚ) ≤ 100000 by norm_num)
    calc q * 100000 ≤ (2 ^ 31 - 1) / 100000 * 100000 := this
      _ = 2 ^ 31 - 1 := by norm_num
  have hub : ⌊q * 100000 + 1 / 2⌋ ≤ 2 ^ 31 - 1 := by
    have h2 : ⌊q * 100000 + 1 / 2⌋ ≤ ⌊((2 : ℚ) ^ 31 - 1) + 1 / 2⌋ :=
      Int.floor_le_floor (by linarith)
    have h3 : ⌊((2 : ℚ) ^ 31 - 1) + 1 / 2⌋ = 2 ^ 31 - 1 := by
      rw [Int.floor_eq_iff]
      constructor <;> norm_num
    omega
  have hfp : fixedPoint q = (⌊q * 100000 + 1 / 2⌋).toNat := by
    rw [fixedPoint, castUInt32, truncQ, if_neg (not_lt.mpr hx),
      Int.emod_eq_of_lt hfl0 (by omega)]
  have hlt : fixedPoint q < 2 ^ 31 := by
    rw [hfp]
    omega
  refine ⟨hlt, ?_⟩
  have hti : ((toInt32 (fixedPoint q) : ℚ)) = ((⌊q * 100000 + 1 / 2⌋ : ℤ) : ℚ) := by
    rw [toInt32, if_pos hlt, hfp]
    push_cast [Int.toNat_of_nonneg hfl0]
    rfl
  rw [hti, abs_le]
  have hle := Int.floor_le (q * 100000 + 1 / 2)
  have hgt := Int.sub_one_lt_floor (q * 100000 + 1 / 2)
  constructor <;> linarith

/-! Cursor progress on arbitrary byte buffers: every nibble read advances
the nibble position and stays within the buffer. -/

theorem readNib_progress {data : List Nat} {di half v di2 half2 : Nat} (hh : half ≤ 1)
    (h : readNib data di half = some (v, di2, half2)) :
    2 * di + half < 2 * di2 + half2 ∧ di2 ≤ data.length ∧ half2 ≤ 1
      ∧ (half2 = 1 → di2 < data.length) := by
  unfold readNib at h
  cases hg : data.get? di with
  | none =>
    rw [hg] at h
    exact absurd h (by simp)
  | some b =>
    rw [hg] at h
    dsimp only at h
    have hdi : di < data.length := by
      by_contra hc
      rw [List.get?_eq_none.mpr (by omega)] at hg
      exact absurd hg (by simp)
    by_cases hhz : half = 0
    · rw [if_pos hhz] at h
      simp only [Option.some.injEq, Prod.mk.injEq] at h
      omega
    · rw [if_neg hhz] at h
      simp only [Option.some.injEq, Prod.mk.injEq] at h
      omega

theorem decodeIntLoop_progress (data : List Nat) : ∀ (m sh acc di half : Nat), half ≤ 1 →
    di ≤ data.length → (half = 1 → di < data.length) →
    ∀ {v di2 half2 : Nat}, decodeIntLoop data m sh acc di half = some (v, di2, half2) →
    2 * di + half ≤ 2 * di2 + half2 ∧ di2 ≤ data.length ∧ half2 ≤ 1
      ∧ (half2 = 1 → di2 < data.length)
  | 0, sh, acc, di, half, hh, hd1, hd2, v, di2, half2, h => by
    simp only [decodeIntLoop, Option.some.injEq, Prod.mk.injEq] at h
    omega
  | m + 1, sh, acc, di, half, hh, hd1, hd2, v, di2, half2, h => by
    rw [decodeIntLoop] at h
    cases hr : readNib data di half with
    | none =>
      rw [hr] at h
      exact absurd h (by simp)
    | some r =>
      obtain ⟨hb, d1, h1⟩ := r
      rw [hr] at h
      have hp := readNib_progress hh hr
      have ih := decodeIntLoop_progress data m (sh + 1) (acc ||| hb <<< (sh * 4)) d1 h1
        hp.2.2.1 hp.2.1 hp.2.2.2 h
      omega

theorem decodeInt_progress {data : List Nat} {di half v di2 half2 : Nat} (hh : half ≤ 1)
    (h : decodeInt data di half = some (v, di2, half2)) :
    2 * di + half < 2 * di2 + half2 ∧ di2 ≤ data.length ∧ half2 ≤ 1
      ∧ (half2 = 1 → di2 < data.length) := by
  rw [decodeInt] at h
  cases hr : readNib data di half with
  | none =>
    rw [hr] at h
    exact absurd h (by simp)
  | some r =>
    obtain ⟨head, d1, h1⟩ := r
    rw [hr] at h
    dsimp only at h
    have hp := readNib_progress hh hr
    by_cases h8 : (if head ≤ 8 then head else head - 8) = 8
    · rw [if_pos h8] at h
      simp only [Option.some.injEq, Prod.mk.injEq] at h
      omega
    · rw [if_neg h8] at h
      have := decodeIntLoop_progress data _ 0 _ d1 h1 hp.2.2.1 hp.2.1 hp.2.2.2 h
      omega

/-- On any input, each `decodeLinear` loop iteration emits one value and
consumes at least one nibble, so the number of emitted values is bounded
by the number of remaining nibble positions. -/
theorem decodeLinearLoop_count (data : List Nat) : ∀ (fuel a b di half : Nat), half ≤ 1 →
    di ≤ data.length → (half = 1 → di < data.length) →
    ∀ {out : List ℚ}, decodeLinearLoop data fuel a b di half = some out →
    out.length + (2 * di + half) ≤ 2 * data.length
  | 0, a, b, di, half, hh, hd1, hd2, out, h => by
    exact absurd h (by rw [decodeLinearLoop]; simp)
  | fuel + 1, a, b, di, half, hh, hd1, hd2, out, h => by
    rw [decodeLinearLoop] at h
    by_cases hlt : di < data.length
    · rw [if_pos hlt] at h
      by_cases hbr : di = data.length - 1 ∧ half = 1 ∧ data.getD di 0 % 16 ≠ 8
      · rw [if_pos hbr] at h
        have : out = [] := by
          simpa using h.symm
        rw [this]
        simp only [List.length_nil, Nat.zero_add]
        omega
      · rw [if_neg hbr] at h
        cases hd : decodeInt data di half with
        | none =>
          rw [hd] at h
          exact absurd h (by simp)
        | some r =>
          obtain ⟨dd, di2, half2⟩ := r
          rw [hd] at h
          dsimp only at h
          cases hrec : decodeLinearLoop data fuel b (wadd (wadd b (wsub b a)) dd) di2 half2 with
          | none =>
            rw [hrec] at h
            exact absurd h (by simp)
          | some rest =>
            rw [hrec] at h
            have hp := decodeInt_progress hh hd
            have ih := decodeLinearLoop_count data fuel b (wadd (wadd b (wsub b a)) dd)
              di2 half2 hp.2.2.1 hp.2.1 hp.2.2.2 hrec
            have : out = ((toInt32 (wadd (wadd b (wsub b a)) dd) : ℚ) / 100000) :: rest := by
              simpa using h.symm
            rw [this]
            simp only [List.length_cons]
            omega
    · rw [if_neg hlt] at h
      have : out = [] := by
        simpa using h.symm
      rw [this]
      simp only [List.length_nil, Nat.zero_add]
      omega

/-- Whenever `decodeLinear` returns values, there are at most twice as
many of them as input bytes. -/
theorem decodeLinear_count {data : List Nat} {out : List ℚ}
    (h : decodeLinear data = some out) : out.length ≤ 2 * data.length := by
  rw [decodeLinear] at h
  by_cases hlen : data.length < 8
  · rw [if_pos hlen] at h
    exact absurd h (by simp)
  · rw [if_neg hlen] at h
    cases hrec : decodeLinearLoop data (2 * data.length + 1) (readWord32 data 0)
        (readWord32 data 4) 8 0 with
    | none =>
      rw [hrec] at h
      exact absurd h (by simp)
    | some rest =>
      rw [hrec] at h
      have hc := decodeLinearLoop_count data (2 * data.length + 1) (readWord32 data 0)
        (readWord32 data 4) 8 0 (by omega) (by omega) (by omega) hrec
      have : out = ((toInt32 (readWord32 data 0) : ℚ) / 100000)
          :: ((toInt32 (readWord32 data 4) : ℚ) / 100000) :: rest := by
        simpa using h.symm
      rw [this]
      simp only [List.length_cons]
      omega

/-! Shape and size of `encodeLinear`'s output. -/

theorem encodeLinear_cons (d0 d1 : ℚ) (rest : List ℚ) :
    encodeLinear (d0 :: d1 :: rest)
      = some (word32LE (fixedPoint d0) ++ word32LE (fixedPoint d1)
        ++ packNibbles (linearNibbles (fixedPoint d0) (fixedPoint d1) rest)) := by
  rw [encodeLinear]
  simp only [List.get?]
  rw [encodeLinearLoop_eq]
  simp only [List.nil_append, List.drop_succ_cons, List.drop_zero]

theorem encodeLinear_none {v : List ℚ} (h : v.length < 2) : encodeLinear v = none := by
  match v with
  | [] => rfl
  | [a] => rfl
  | a :: b :: t =>
    simp only [List.length_cons] at h
    omega

theorem encodeLinear_len {v : List ℚ} {bs : List Nat} (h : encodeLinear v = some bs) :
    2 ≤ v.length ∧ bs.length ≤ 5 * v.length ∧ 8 ≤ bs.length := by
  match v with
  | [] => exact absurd h (by rw [encodeLinear_none (by simp)]; simp)
  | [a] => exact absurd h (by rw [encodeLinear_none (by simp)]; simp)
  | d0 :: d1 :: rest =>
    rw [encodeLinear_cons] at h
    have hbs : bs = word32LE (fixedPoint d0) ++ word32LE (fixedPoint d1)
        ++ packNibbles (linearNibbles (fixedPoint d0) (fixedPoint d1) rest) := by
      simpa using h.symm
    have hub := (linearNibbles_len rest (fixedPoint d0) (fixedPoint d1)).2
    have hplen := packNibbles_length (linearNibbles (fixedPoint d0) (fixedPoint d1) rest)
    rw [hbs]
    simp only [List.length_append, List.length_cons, word32LE, List.length_nil]
    refine ⟨by omega, ?_, by omega⟩
    omega

/-! The final-byte heuristic of `decodeLinear` / `decodeCount`. -/

theorem get?_getD {data : List Nat} {i : Nat} (h : i < data.length) :
    data.get? i = some (data.getD i 0) := by
  rw [List.get?_eq_getElem?, List.getElem?_eq_getElem h, List.getD_eq_getElem?_getD,
    List.getElem?_eq_getElem h]
  rfl

/-- With exactly one unconsumed nibble equal to `0x8`, `decodeInt` decodes
it as the lone header "value 0" and consumes the rest of the buffer. -/
theorem decodeInt_last8 {data : List Nat} (hne : data.length ≠ 0)
    (h8 : data.getD (data.length - 1) 0 % 16 = 8) :
    decodeInt data (data.length - 1) 1 = some (0, data.length, 0) := by
  have hrn : readNib data (data.length - 1) 1 = some (8, data.length, 0) := by
    rw [readNib_some 1 (get?_getD (by omega)), if_neg (by omega)]
    refine congrArg some (Prod.ext h8 (Prod.ext ?_ rfl))
    show data.length - 1 + 1 = data.length
    omega
  rw [decodeInt_head hrn]
  norm_num

theorem lastNibble_break (data : List Nat) (hne : data.length ≠ 0)
    (h8 : data.getD (data.length - 1) 0 % 16 ≠ 8) (fuel : Nat) (a b : Nat) :
    decodeCountLoop data (fuel + 1) (data.length - 1) 1 = some []
      ∧ decodeLinearLoop data (fuel + 1) a b (data.length - 1) 1 = some [] := by
  constructor
  · rw [decodeCountLoop, if_pos (by omega), if_pos ⟨rfl, rfl, h8⟩]
  · rw [decodeLinearLoop, if_pos (by omega), if_pos ⟨rfl, rfl, h8⟩]

theorem lastNibble_decode (data : List Nat) (hne : data.length ≠ 0)
    (h8 : data.getD (data.length - 1) 0 % 16 = 8) (fuel : Nat) (a b : Nat) :
    decodeCountLoop data (fuel + 2) (data.length - 1) 1 = some [(0 : ℚ)]
      ∧ decodeLinearLoop data (fuel + 2) a b (data.length - 1) 1
        = some [((toInt32 (wadd b (wsub b a)) : ℚ) / 100000)] := by
  have hnb : ¬(data.length - 1 = data.length - 1 ∧ 1 = 1
      ∧ data.getD (data.length - 1) 0 % 16 ≠ 8) := by
    rintro ⟨-, -, hc⟩
    exact hc h8
  have hy : wadd (wadd b (wsub b a)) 0 = wadd b (wsub b a) := by
    have := wadd_lt b (wsub b a)
    unfold wadd at *
    omega
  constructor
  · rw [decodeCountLoop, if_pos (by omega), if_neg hnb, decodeInt_last8 hne h8]
    dsimp only
    rw [decodeCountLoop, if_neg (by omega)]
    norm_num [toInt32]
  · rw [decodeLinearLoop, if_pos (by omega), if_neg hnb, decodeInt_last8 hne h8]
    dsimp only
    rw [decodeLinearLoop, if_neg (by omega)]
    rw [hy]

/-! Lengths for the two-byte float codec. -/

theorem encode2ByteFloat_length (f : ℚ → Nat) : ∀ v : List ℚ,
    (encode2ByteFloat f v).length = 2 * v.length
  | [] => rfl
  | d :: rest => by
    rw [encode2ByteFloat]
    simp only [List.length_cons, encode2ByteFloat_length f rest]
    omega

theorem decode2Go_length (u : Nat → ℚ) : ∀ data : List Nat,
    (decode2Go u data).length = data.length / 2
  | [] => rfl
  | [a] => by
    rw [show decode2Go u [a] = [] from rfl]
    norm_num
  | a :: b :: t => by
    rw [decode2Go]
    simp only [List.length_cons, decode2Go_length u t]
    omega

/-! Concrete evaluations of the fixed-point cast (the rational layer is
opaque to kernel reduction, so these are established by `norm_num`). -/

theorem fixedPoint_one : fixedPoint 1 = 100000 := by
  norm_num [fixedPoint, castUInt32, truncQ]
  decide

theorem fixedPoint_two : fixedPoint 2 = 200000 := by
  norm_num [fixedPoint, castUInt32, truncQ]
  decide

theorem fixedPoint_three : fixedPoint 3 = 300000 := by
  norm_num [fixedPoint, castUInt32, truncQ]
  decide

theorem encodeLinear_123 : encodeLinear [(1 : ℚ), 2, 3]
    = some (word32LE 100000 ++ word32LE 200000 ++ packNibbles (encodeInt 0)) := by
  rw [encodeLinear_cons, fixedPoint_one, fixedPoint_two]
  rw [show linearNibbles 100000 200000 [(3 : ℚ)]
      = encodeInt (toInt32 (wsub (fixedPoint 3) (wadd 200000 (wsub 200000 100000))))
        ++ linearNibbles 200000 (fixedPoint 3) [] from rfl, fixedPoint_three]
  decide

/-! The ten claims. -/

/-- Claim C1: for every signed 32-bit integer `x`, decoding the nibble
sequence produced by `encodeInt x` with `decodeInt` yields `x` again,
provided the byte-position and half-nibble parity state is threaded
consistently: decoding starts at the exact nibble position at which the
encoding was appended, inside an arbitrary surrounding packed stream, and
stops exactly after the encoded nibbles.  The decoded 32-bit pattern is
`pat32 x`, whose signed reading is `x`. -/
theorem claim1_int_roundtrip (x : Int) (h1 : -(2 ^ 31) ≤ x) (h2 : x < 2 ^ 31)
    (pre suf : List Nat) :
    decodeInt (packNibbles (pre ++ encodeInt x ++ suf)) (pre.length / 2) (pre.length % 2)
      = some (pat32 x, (pre.length + (encodeInt x).length) / 2,
          (pre.length + (encodeInt x).length) % 2)
      ∧ toInt32 (pat32 x) = x :=
  ⟨decodeInt_encodeInt x pre suf, toInt32_pat32 h1 h2⟩

/-- Witness for C1 at `x = 23` in the empty stream context. -/
theorem claim1_int_roundtrip_witness :
    decodeInt (packNibbles (([] : List Nat) ++ encodeInt 23 ++ ([] : List Nat)))
        (([] : List Nat).length / 2) (([] : List Nat).length % 2)
      = some (pat32 23, (([] : List Nat).length + (encodeInt 23).length) / 2,
          (([] : List Nat).length + (encodeInt 23).length) % 2)
      ∧ toInt32 (pat32 23) = 23 :=
  claim1_int_roundtrip 23 (by norm_num) (by norm_num) [] []

/-- Claim C2 (amended): in `decodeLinear` and `decodeCount`, when exactly
one nibble remains unconsumed in the final byte, the decoder treats it as
a real final value and decodes it exactly when the low nibble equals the
sentinel `0x8` (yielding the value 0 for the count codec, and the bare
extrapolation for the linear codec), and discards it as padding when it
differs from `0x8` — the opposite polarity of the claim as stated. -/
theorem claim2_last_nibble (data : List Nat) (hne : data.length ≠ 0) (a b fuel : Nat) :
    (data.getD (data.length - 1) 0 % 16 ≠ 8 →
      decodeCountLoop data (fuel + 2) (data.length - 1) 1 = some []
      ∧ decodeLinearLoop data (fuel + 2) a b (data.length - 1) 1 = some [])
    ∧ (data.getD (data.length - 1) 0 % 16 = 8 →
      decodeCountLoop data (fuel + 2) (data.length - 1) 1 = some [(0 : ℚ)]
      ∧ decodeLinearLoop data (fuel + 2) a b (data.length - 1) 1
        = some [((toInt32 (wadd b (wsub b a)) : ℚ) / 100000)]) :=
  ⟨fun h8 => lastNibble_break data hne h8 (fuel + 1) a b,
   fun h8 => lastNibble_decode data hne h8 fuel a b⟩

/-- Witness for C2 on the one-byte buffers `[0x87]` and `[0x88]`. -/
theorem claim2_last_nibble_witness :
    (decodeCountLoop [135] 2 0 1 = some []
      ∧ decodeLinearLoop [135] 2 5 7 0 1 = some [])
    ∧ (decodeCountLoop [136] 2 0 1 = some [(0 : ℚ)]
      ∧ decodeLinearLoop [136] 2 5 7 0 1
        = some [((toInt32 (wadd 7 (wsub 7 5)) : ℚ) / 100000)]) :=
  ⟨(claim2_last_nibble [135] (by decide) 5 7 0).1 (by decide),
   (claim2_last_nibble [136] (by decide) 5 7 0).2 (by decide)⟩

/-- Counterexample to C2 as stated: on the buffer `[0x88]` the final
remaining low nibble equals `0x8` and is decoded as a real value 0 rather
than discarded (`decodeCount [0x88] = [0, 0]`, not `[0]`), while on
`[0x87]` the final nibble `0x7 ≠ 0x8` is discarded rather than decoded. -/
theorem claim2_counterexample :
    decodeCount [136] = some [(0 : ℚ), 0] ∧ decodeCount [136] ≠ some [(0 : ℚ)]
      ∧ decodeCount [135] = some [(0 : ℚ)] := by decide

/-- Claim C3 (amended): the count codec round-trips every integer `n`
with `0 ≤ n ≤ 2147483647 = 2^31 - 1`.  (Above that, the decoded `int` is
negative; see the counterexample.) -/
theorem claim3_count_roundtrip (n : Nat) (h : n ≤ 2147483647) :
    decodeCount (encodeCount [(n : ℚ)]) = some [(n : ℚ)] := by
  rw [decodeCount_encodeCount]
  have hc := countOf_int n (by omega)
  rw [List.map_cons, List.map_nil, hc, Nat.mod_eq_of_lt (by omega)]
  have ht : toInt32 n = (n : Int) := by
    rw [toInt32, if_pos (by omega)]
  rw [ht]
  norm_num

/-- Witness for C3 at `n = 23`. -/
theorem claim3_count_roundtrip_witness :
    decodeCount (encodeCount [((23 : Nat) : ℚ)]) = some [((23 : Nat) : ℚ)] :=
  claim3_count_roundtrip 23 (by norm_num)

/-- Counterexample to C3 as stated: `n = 2147483648` is a non-negative
integer exactly representable as a double and at most `4294967294`, yet
the round trip returns `-2147483648`, because `decodeCount` stores the
decoded pattern through a signed `int` (`result[ri++] = count`). -/
theorem claim3_counterexample :
    decodeCount (encodeCount [(2147483648 : ℚ)]) = some [(-2147483648 : ℚ)]
      ∧ decodeCount (encodeCount [(2147483648 : ℚ)]) ≠ some [(2147483648 : ℚ)] := by
  have hc : countOf (2147483648 : ℚ) = 2147483648 := by
    have h := countOf_int 2147483648 (by norm_num)
    exact_mod_cast h
  have h1 : decodeCount (encodeCount [(2147483648 : ℚ)])
      = some [(toInt32 (countOf (2147483648 : ℚ) % 2 ^ 32) : ℚ)] := by
    rw [decodeCount_encodeCount]
    rfl
  have h2 : toInt32 (countOf (2147483648 : ℚ) % 2 ^ 32) = -2147483648 := by
    rw [hc, toInt32, if_neg (by norm_num)]
    norm_num
  rw [h1, h2]
  norm_num

/-- Claim C5: on input `[1.0, 2.0, 3.0]`, `encodeLinear` stores the two
fixed-point headers `100000` and `200000` verbatim as little-endian
32-bit words in the first 8 bytes, the third value's residual is 0
(`extrapol = 300000`, `diff = 0`), encoded as the single nibble stream of
`encodeInt 0`, giving the 9-byte output shown. -/
theorem claim5_first_two_verbatim :
    encodeLinear [(1 : ℚ), 2, 3]
      = some (word32LE 100000 ++ word32LE 200000 ++ packNibbles (encodeInt 0))
    ∧ fixedPoint 1 = 100000 ∧ fixedPoint 2 = 200000
    ∧ wadd (fixedPoint 2) (wsub (fixedPoint 2) (fixedPoint 1)) = 300000
    ∧ wsub (fixedPoint 3) (wadd (fixedPoint 2) (wsub (fixedPoint 2) (fixedPoint 1))) = 0
    ∧ encodeInt 0 = [8]
    ∧ word32LE 100000 ++ word32LE 200000 ++ packNibbles (encodeInt 0)
      = [160, 134, 1, 0, 64, 13, 3, 0, 128] := by
  refine ⟨encodeLinear_123, fixedPoint_one, fixedPoint_two, ?_, ?_, by decide, by decide⟩
  · rw [fixedPoint_one, fixedPoint_two]
    decide
  · rw [fixedPoint_one, fixedPoint_two, fixedPoint_three]
    decide

/-- Claim C7: `encodeInt` emits exactly `1 + (8 - l)` nibbles (`l` being
the elided leading-nibble count computed by its branches, `headerTrim`),
always between 1 and 9; and concretely `encodeInt 0 = [0x8]`,
`encodeInt 23 = [0x6, 0x7, 0x1]`, `encodeInt (-1) = [0xf, 0xf]`. -/
theorem claim7_encodeInt_nibbles :
    (∀ x : Int, (encodeInt x).length = 1 + (8 - headerTrim x)
      ∧ 1 ≤ (encodeInt x).length ∧ (encodeInt x).length ≤ 9)
    ∧ encodeInt 0 = [8] ∧ encodeInt 23 = [6, 7, 1] ∧ encodeInt (-1) = [15, 15] := by
  refine ⟨fun x => ⟨encodeInt_length x, encodeInt_length_le x⟩, ?_, ?_, ?_⟩ <;> decide

/-- Claim C8, evaluated at failing inputs: truncated or malformed buffers
drive `decodeCount` / `decodeLinear` into out-of-bounds `std::vector`
reads (undefined behaviour, modelled as `none`).  The `catch (...)` block
that would print the offset never runs, because the unchecked
`operator[]` does not throw. -/
theorem claim8_truncated_oob :
    decodeCount [23] = none ∧ decodeLinear [] = none
      ∧ decodeLinear [160, 134, 1] = none := by decide

/-- Claim C4 (amended): for every sequence of at least two values lying
in `[0, (2^31 - 1)/100000]` (approximately `[0, 21474.83647]`), every
element of `decodeLinear (encodeLinear v)` differs from the corresponding
original element by at most `5e-6 = 1/200000`.  (Negative values violate
the bound — see the counterexample — and values above `(2^31 - 1)/100000`
overflow the signed reading of the fixed-point pattern.) -/
theorem claim4_linear_error (v : List ℚ) (h2 : 2 ≤ v.length)
    (hv : ∀ q ∈ v, 0 ≤ q ∧ q ≤ (2 ^ 31 - 1) / 100000) :
    ∃ bs ds, encodeLinear v = some bs ∧ decodeLinear bs = some ds
      ∧ ds.length = v.length
      ∧ ∀ i, i < v.length → |ds.getD i 0 - v.getD i 0| ≤ 1 / 200000 := by
  obtain ⟨bs, hbs, hdec⟩ := decodeLinear_encodeLinear v h2
  refine ⟨bs, _, hbs, hdec, by simp, ?_⟩
  intro i hi
  have hgd1 : (v.map fun d => ((toInt32 (fixedPoint d) : ℚ) / 100000)).getD i 0
      = (toInt32 (fixedPoint (v.getD i 0)) : ℚ) / 100000 := by
    rw [List.getD_eq_getElem _ _ (by simpa using hi), List.getElem_map,
      List.getD_eq_getElem _ _ hi]
  rw [hgd1]
  have hmem : v.getD i 0 ∈ v := by
    rw [List.getD_eq_getElem _ _ hi]
    exact List.getElem_mem _
  obtain ⟨hq0, hq1⟩ := hv _ hmem
  exact (linear_val_spec _ hq0 hq1).2

/-- Witness for C4 on `[1, 2]`. -/
theorem claim4_linear_error_witness :
    ∃ bs ds, encodeLinear [(1 : ℚ), 2] = some bs ∧ decodeLinear bs = some ds
      ∧ ds.length = ([(1 : ℚ), 2] : List ℚ).length
      ∧ ∀ i, i < ([(1 : ℚ), 2] : List ℚ).length →
          |ds.getD i 0 - ([(1 : ℚ), 2] : List ℚ).getD i 0| ≤ 1 / 200000 :=
  claim4_linear_error [1, 2] (by norm_num)
    (by
      intro q hq
      fin_cases hq <;> constructor <;> norm_num)

/-- Counterexample to C4 as stated: the sequence `[-0.3, -0.3]` lies well
inside `[-42000, 42000]`, but the truncation-toward-zero cast sends
`-0.3 * 100000 + 0.5 = -29999.5` to `-29999`, so the decoded value is
`-0.29999`, off by `1e-5 > 5e-6`. -/
theorem claim4_counterexample :
    (encodeLinear [(-3 : ℚ)/10, (-3 : ℚ)/10]).bind decodeLinear
      = some [(-29999 : ℚ)/100000, (-29999 : ℚ)/100000]
    ∧ ¬|((-29999 : ℚ)/100000) - ((-3 : ℚ)/10)| ≤ 1 / 200000 := by
  constructor
  · obtain ⟨bs, hbs, hdec⟩ := decodeLinear_encodeLinear [(-3 : ℚ)/10, (-3 : ℚ)/10] (by norm_num)
    rw [hbs]
    show decodeLinear bs = _
    rw [hdec]
    have hfp : fixedPoint ((-3 : ℚ)/10) = 4294937297 := by
      norm_num [fixedPoint, castUInt32, truncQ]
      decide
    have ht : (toInt32 4294937297 : ℚ) = -29999 := by
      rw [toInt32, if_neg (by norm_num)]
      norm_num
    rw [List.map_cons, List.map_cons, List.map_nil, hfp, ht]
  · have habs : ((-29999 : ℚ)/100000) - ((-3 : ℚ)/10) = 1/100000 := by norm_num
    rw [habs, abs_of_pos (by norm_num)]
    norm_num

/-- Claim C6 (amended): whenever `encodeLinear` succeeds (which requires
at least two inputs) its output has at most `5 * n` bytes; whenever
`decodeLinear` returns values there are at most `2 * byteCount` of them;
`encode2ByteFloat` writes exactly `2 * n` bytes for every input; and
whenever `decode2ByteFloat` succeeds (which requires an even byte count)
it produces exactly `byteCount / 2` values. -/
theorem claim6_size_bounds :
    (∀ (v : List ℚ) (bs : List Nat), encodeLinear v = some bs → bs.length ≤ 5 * v.length)
    ∧ (∀ (data : List Nat) (out : List ℚ), decodeLinear data = some out
        → out.length ≤ 2 * data.length)
    ∧ (∀ (f : ℚ → Nat) (v : List ℚ), (encode2ByteFloat f v).length = 2 * v.length)
    ∧ (∀ (g : Nat → ℚ) (data : List Nat) (out : List ℚ),
        decode2ByteFloat g data = some out → out.length = data.length / 2) := by
  refine ⟨fun v bs h => (encodeLinear_len h).2.1, fun data out h => decodeLinear_count h,
    encode2ByteFloat_length, fun g data out h => ?_⟩
  rw [decode2ByteFloat] at h
  by_cases he : data.length % 2 = 0
  · rw [if_pos he] at h
    have hout : out = decode2Go g data := by
      simpa using h.symm
    rw [hout, decode2Go_length]
  · rw [if_neg he] at h
    exact absurd h (by simp)

/-- Witness for C6 on concrete inputs. -/
theorem claim6_size_bounds_witness :
    ([160, 134, 1, 0, 64, 13, 3, 0, 128] : List Nat).length
      ≤ 5 * ([(1 : ℚ), 2, 3] : List ℚ).length
    ∧ (decode2Go (fun n => (n : ℚ)) [1, 2]).length = ([1, 2] : List Nat).length / 2 := by
  constructor
  · refine claim6_size_bounds.1 [1, 2, 3] _ ?_
    rw [encodeLinear_123]
    rfl
  · exact claim6_size_bounds.2.2.2 (fun n => (n : ℚ)) [1, 2] _ rfl

/-- Counterexample to C6 as stated ("for every input"): on a one-element
input `encodeLinear` reads `data[1]` out of bounds (so it does not write
"at most 5 bytes" — the C code would write an 8-byte header from the
out-of-bounds read), and on an odd byte count `decode2ByteFloat` reads
and writes out of bounds instead of producing `byteCount / 2` values. -/
theorem claim6_counterexample :
    encodeLinear [(1 : ℚ)] = none
    ∧ decode2ByteFloat (fun n => (n : ℚ)) [0, 0, 0] = none := ⟨rfl, rfl⟩

/-- Claim C9: `encodeLinear` reads `data[0]` and `data[1]` and writes the
8-byte fixed-point header unconditionally, so fewer than two inputs is an
out-of-bounds access (`none` in the model) and `dataSize ≥ 2` is a
necessary precondition; under it, the output starts with the two verbatim
little-endian header words and every byte written lies within the first
`5 * dataSize` bytes. -/
theorem claim9_encodeLinear_preconditions :
    (∀ v : List ℚ, v.length < 2 → encodeLinear v = none)
    ∧ (∀ (v : List ℚ) (bs : List Nat), encodeLinear v = some bs →
        2 ≤ v.length ∧ 8 ≤ bs.length ∧ bs.length ≤ 5 * v.length
        ∧ bs.take 8 = word32LE (fixedPoint (v.getD 0 0)) ++ word32LE (fixedPoint (v.getD 1 0))) := by
  refine ⟨fun v h => encodeLinear_none h, fun v bs h => ?_⟩
  obtain ⟨h2, h5, h8⟩ := encodeLinear_len h
  refine ⟨h2, h8, h5, ?_⟩
  match v with
  | [] => exact absurd h (by rw [encodeLinear_none (by simp)]; simp)
  | [a] => exact absurd h (by rw [encodeLinear_none (by simp)]; simp)
  | d0 :: d1 :: rest =>
    rw [encodeLinear_cons] at h
    have hbs : bs = word32LE (fixedPoint d0) ++ word32LE (fixedPoint d1)
        ++ packNibbles (linearNibbles (fixedPoint d0) (fixedPoint d1) rest) := by
      simpa using h.symm
    rw [hbs, List.take_left' (by simp [word32LE])]
    rfl

/-- Witness for C9 on a one-element input and on `[1, 2, 3]`. -/
theorem claim9_encodeLinear_preconditions_witness :
    encodeLinear [(5 : ℚ)] = none
    ∧ (2 ≤ ([(1 : ℚ), 2, 3] : List ℚ).length
      ∧ 8 ≤ ([160, 134, 1, 0, 64, 13, 3, 0, 128] : List Nat).length
      ∧ ([160, 134, 1, 0, 64, 13, 3, 0, 128] : List Nat).length
          ≤ 5 * ([(1 : ℚ), 2, 3] : List ℚ).length
      ∧ ([160, 134, 1, 0, 64, 13, 3, 0, 128] : List Nat).take 8
          = word32LE (fixedPoint (([(1 : ℚ), 2, 3] : List ℚ).getD 0 0))
            ++ word32LE (fixedPoint (([(1 : ℚ), 2, 3] : List ℚ).getD 1 0))) :=
  ⟨claim9_encodeLinear_preconditions.1 [5] (by norm_num),
   claim9_encodeLinear_preconditions.2 [1, 2, 3] _ (by rw [encodeLinear_123]; rfl)⟩

/-- Claim C10: `decode2ByteFloat` reads its input two bytes at a time;
for every even-length input all reads are in bounds and exactly
`size / 2` values are produced, whereas an odd-length input makes the
final iteration read `data[dataSize]` one past the end and write past the
resized result (out of bounds, modelled as `none`), so an even byte count
is a necessary precondition. -/
theorem claim10_decode2_even_odd (f : Nat → ℚ) (data : List Nat) :
    (data.length % 2 = 0 →
      decode2ByteFloat f data = some (decode2Go f data)
      ∧ (decode2Go f data).length = data.length / 2)
    ∧ (data.length % 2 ≠ 0 → decode2ByteFloat f data = none) := by
  constructor
  · intro h
    exact ⟨by rw [decode2ByteFloat, if_pos h], decode2Go_length f data⟩
  · intro h
    rw [decode2ByteFloat, if_neg h]

/-- Witness for C10 on a two-byte and a three-byte buffer. -/
theorem claim10_decode2_even_odd_witness :
    (decode2ByteFloat (fun n => (n : ℚ)) [1, 2]
        = some (decode2Go (fun n => (n : ℚ)) [1, 2])
      ∧ (decode2Go (fun n => (n : ℚ)) [1, 2]).length = ([1, 2] : List Nat).length / 2)
    ∧ decode2ByteFloat (fun n => (n : ℚ)) [1, 2, 3] = none :=
  ⟨(claim10_decode2_even_odd (fun n => (n : ℚ)) [1, 2]).1 (by decide),
   (claim10_decode2_even_odd (fun n => (n : ℚ)) [1, 2, 3]).2 (by decide)⟩

end MSNumpress
